import Mathlib

/-!
Verification of the deduplication core of the data-governance repository.

The definitions below are a shallow embedding of
`src/data_governance/dedup/hash_dedup.py`, `semantic_dedup.py`,
`engine.py` and the dedup section of `core/config.py`.
Machine floats are idealised as exact rationals; the comparison
`similarity >= threshold` is embedded as a decidable rational test and
proved equivalent to the real-valued cosine inequality.  Python lists
indexed by integers become Lean lists, Python dicts (which preserve
insertion order) become association lists, and the mutable union-find
parent array becomes an explicitly threaded function `Nat → Nat`.
-/

namespace DedupModel

/- Batteries marks the rational operations `@[irreducible]`, which blocks
`decide`-style evaluation of concrete runs; restore default reducibility
for this development (the kernel unfolds them regardless). -/
attribute [local semireducible] Rat.mul Rat.add Rat.sub Rat.inv
  Rat.ofScientific

/-- Python `enumerate` starting at `k`. -/
def enumFrom (k : Nat) : List α → List (Nat × α)
  | [] => []
  | a :: as => (k, a) :: enumFrom (k + 1) as

/-- Python `enumerate(l)`. -/
def pyEnum (l : List α) : List (Nat × α) := enumFrom 0 l

/-- Python `zip(l1, l2, l3)`: truncates to the shortest list. -/
def zip3 : List α → List β → List γ → List (α × β × γ)
  | a :: as, b :: bs, c :: cs => (a, b, c) :: zip3 as bs cs
  | _, _, _ => []

/-- The synthetic ids `["item_0", "item_1", ...]` built by
`[f"item_{i}" for i in range(n)]`. -/
def positionalIds (n : Nat) : List String :=
  (List.range n).map (fun i => "item_" ++ toString i)

/-- Structural helper for `chunksOf`: the fuel is the list length and
each step consumes at least one element (for positive `bs`). -/
def chunksOfAux (bs : Nat) : Nat → List α → List (List α)
  | 0, _ => []
  | _, [] => []
  | fuel + 1, a :: rest =>
    (a :: rest).take bs :: chunksOfAux bs fuel ((a :: rest).drop bs)

/-- `l[i : i + bs]` slices taken by `range(0, len(l), bs)`; for `bs = 0`
Python raises, we return `[]` (claims only use positive batch sizes). -/
def chunksOf (bs : Nat) (l : List α) : List (List α) :=
  if bs = 0 then [] else chunksOfAux bs l.length l

theorem length_dropWhile_le (p : α → Bool) (l : List α) :
    (l.dropWhile p).length ≤ l.length := by
  induction l with
  | nil => simp [List.dropWhile]
  | cons a as ih =>
    by_cases h : p a = true
    · simp [List.dropWhile, h]; omega
    · simp [List.dropWhile, h]

/-! ### Whitespace handling (`HashDeduplicator._normalize`)

`text.strip()` and `re.sub(r"\s+", " ", text)` use Python's Unicode
whitespace class. -/

/-- Characters Python `str` treats as whitespace (`str.isspace`, `\s`). -/
def pyIsSpace (c : Char) : Bool :=
  let n := c.toNat
  (0x09 ≤ n && n ≤ 0x0D) || (0x1C ≤ n && n ≤ 0x1F) || n == 0x20 ||
    n == 0x85 || n == 0xA0 || n == 0x1680 ||
    (0x2000 ≤ n && n ≤ 0x200A) || n == 0x2028 || n == 0x2029 ||
    n == 0x202F || n == 0x205F || n == 0x3000

/-- Python `text.strip()`. -/
def pyStrip (l : List Char) : List Char :=
  ((l.dropWhile pyIsSpace).reverse.dropWhile pyIsSpace).reverse

/-- Structural helper for `collapseWS`: the flag records whether we are
inside a whitespace run whose single replacement space was already
emitted. -/
def collapseWSAux : Bool → List Char → List Char
  | _, [] => []
  | inRun, c :: rest =>
    if pyIsSpace c then
      if inRun then collapseWSAux true rest
      else ' ' :: collapseWSAux true rest
    else c :: collapseWSAux false rest

/-- `re.sub(r"\s+", " ", text)`: collapse each maximal whitespace run to
one space. -/
def collapseWS (l : List Char) : List Char := collapseWSAux false l

/-- `HashDeduplicator._normalize`: strip, then collapse whitespace runs. -/
def normalizeText (s : String) : String :=
  String.mk (collapseWS (pyStrip s.data))

/-! ### xxh64 (`QualityMetrics.content_hash` uses
`xxhash.xxh64(text.encode("utf-8")).hexdigest()`) -/

def M64 : Nat := 2 ^ 64
def P1 : Nat := 11400714785074694791
def P2 : Nat := 14029467366897019727
def P3 : Nat := 1609587929392839161
def P4 : Nat := 9650029242287828579
def P5 : Nat := 2870177450012600261

/-- 64-bit left rotation. -/
def rotl64 (x r : Nat) : Nat :=
  ((x <<< r) % M64) ||| (x >>> (64 - r))

def xxRound (acc lane : Nat) : Nat :=
  (rotl64 ((acc + lane * P2) % M64) 31) * P1 % M64

def xxMergeRound (h acc : Nat) : Nat :=
  ((h ^^^ xxRound 0 acc) * P1 % M64 + P4) % M64

/-- Little-endian read of the first 8 bytes. -/
def le64 (bs : List Nat) : Nat :=
  (pyEnum (bs.take 8)).foldl (fun a p => a + p.2 * 2 ^ (8 * p.1)) 0

/-- Little-endian read of the first 4 bytes. -/
def le32 (bs : List Nat) : Nat :=
  (pyEnum (bs.take 4)).foldl (fun a p => a + p.2 * 2 ^ (8 * p.1)) 0

/-- The 32-byte stripe loop of XXH64 (structural: a stripe is matched as
32 explicit bytes). -/
def xxStripes (v1 v2 v3 v4 : Nat) :
    List Nat → Nat × Nat × Nat × Nat × List Nat
  | b0 :: b1 :: b2 :: b3 :: b4 :: b5 :: b6 :: b7 ::
    b8 :: b9 :: b10 :: b11 :: b12 :: b13 :: b14 :: b15 ::
    b16 :: b17 :: b18 :: b19 :: b20 :: b21 :: b22 :: b23 ::
    b24 :: b25 :: b26 :: b27 :: b28 :: b29 :: b30 :: b31 :: rest =>
    xxStripes (xxRound v1 (le64 [b0, b1, b2, b3, b4, b5, b6, b7]))
      (xxRound v2 (le64 [b8, b9, b10, b11, b12, b13, b14, b15]))
      (xxRound v3 (le64 [b16, b17, b18, b19, b20, b21, b22, b23]))
      (xxRound v4 (le64 [b24, b25, b26, b27, b28, b29, b30, b31])) rest
  | bs => (v1, v2, v3, v4, bs)

def xxAvalanche (h : Nat) : Nat :=
  let h := h ^^^ (h >>> 33)
  let h := h * P2 % M64
  let h := h ^^^ (h >>> 29)
  let h := h * P3 % M64
  h ^^^ (h >>> 32)

/-- The finalization loops of XXH64 (8-byte, 4-byte, then single bytes;
structural pattern matching plays the role of the length checks). -/
def xxFinal (h : Nat) : List Nat → Nat
  | b0 :: b1 :: b2 :: b3 :: b4 :: b5 :: b6 :: b7 :: rest =>
    xxFinal (((rotl64 (h ^^^ xxRound 0 (le64 [b0, b1, b2, b3, b4, b5, b6, b7]))
        27) * P1 % M64 + P4) % M64) rest
  | b0 :: b1 :: b2 :: b3 :: rest =>
    xxFinal (((rotl64 (h ^^^ (le32 [b0, b1, b2, b3] * P1 % M64)) 23) * P2 %
        M64 + P3) % M64) rest
  | b :: rest =>
    xxFinal ((rotl64 (h ^^^ (b * P5 % M64)) 11) * P1 % M64) rest
  | [] => xxAvalanche h

/-- XXH64 with seed 0 over a byte list. -/
def xxh64 (bytes : List Nat) : Nat :=
  let len := bytes.length
  let hrest : Nat × List Nat :=
    if 32 ≤ len then
      let s := xxStripes ((P1 + P2) % M64) (P2 % M64) 0 ((M64 - P1) % M64) bytes
      let v1 := s.1
      let v2 := s.2.1
      let v3 := s.2.2.1
      let v4 := s.2.2.2.1
      let h := (rotl64 v1 1 + rotl64 v2 7 + rotl64 v3 12 + rotl64 v4 18) % M64
      let h := xxMergeRound h v1
      let h := xxMergeRound h v2
      let h := xxMergeRound h v3
      let h := xxMergeRound h v4
      (h, s.2.2.2.2)
    else (P5 % M64, bytes)
  xxFinal ((hrest.1 + len) % M64) hrest.2

/-- UTF-8 encoding of one character. -/
def utf8Char (c : Char) : List Nat :=
  let n := c.toNat
  if n < 0x80 then [n]
  else if n < 0x800 then [0xC0 + n / 64, 0x80 + n % 64]
  else if n < 0x10000 then
    [0xE0 + n / 4096, 0x80 + (n / 64) % 64, 0x80 + n % 64]
  else
    [0xF0 + n / 262144, 0x80 + (n / 4096) % 64, 0x80 + (n / 64) % 64,
      0x80 + n % 64]

/-- `text.encode("utf-8")` as a byte list. -/
def utf8Encode (s : String) : List Nat :=
  (s.data.map utf8Char).flatten

def hexChar (n : Nat) : Char :=
  if n < 10 then Char.ofNat (48 + n) else Char.ofNat (87 + n)

def toHexAux : Nat → Nat → List Char
  | 0, _ => []
  | d + 1, n => toHexAux d (n / 16) ++ [hexChar (n % 16)]

/-- `hexdigest()`: 16 lowercase hex digits. -/
def toHex16 (n : Nat) : String := String.mk (toHexAux 16 n)

/-- `QualityMetrics.content_hash`. -/
def contentHash (text : String) : String := toHex16 (xxh64 (utf8Encode text))

/-! ### Data model (`hash_dedup.py`, `engine.py`, `core/config.py`) -/

/-- A metadata dict, as an association list; only its size is consulted. -/
abbrev Meta := List (String × String)

/-- `DuplicateGroup` dataclass. -/
structure DuplicateGroup where
  hash_value : String
  ids : List String
  keep_id : String
  remove_ids : List String
deriving Repr, DecidableEq

/-- `DedupResult` dataclass. -/
structure DedupResult where
  total_items : Nat
  unique_items : Nat
  duplicate_groups : List DuplicateGroup
  removed_ids : List String
deriving Repr, DecidableEq

/-- `DedupResult.duplicate_count` property: `total_items - unique_items`
(Python int subtraction). -/
def DedupResult.duplicate_count (r : DedupResult) : Int :=
  (r.total_items : Int) - (r.unique_items : Int)

/-- `FullDedupReport` dataclass. -/
structure FullDedupReport where
  hash_result : DedupResult
  semantic_result : Option DedupResult
  actions_taken : List String
deriving Repr, DecidableEq

/-- `FullDedupReport.total_duplicates` property. -/
def FullDedupReport.total_duplicates (r : FullDedupReport) : Int :=
  r.hash_result.duplicate_count +
    (match r.semantic_result with
     | some s => s.duplicate_count
     | none => 0)

/-- The `DedupConfig` pydantic model's dedup-relevant defaults. -/
structure DedupConfig where
  hash_algorithm : String := "xxhash"
  semantic_threshold : ℚ := 0.95
  batch_size : Nat := 100
  dry_run : Bool := true
deriving Repr, DecidableEq

def defaultDedupConfig : DedupConfig := {}

/-! ### Insertion-ordered grouping (a Python dict of lists)

`hash_groups[h].append(...)` and the semantic `groups[root].append(i)`
both build a dict mapping keys to lists, in key first-insertion order. -/

/-- Add `v` to the bucket for `k`, creating the bucket at the end if new. -/
def bucketAdd [DecidableEq κ] : List (κ × List α) → κ → α → List (κ × List α)
  | [], k, v => [(k, [v])]
  | (k', vs) :: rest, k, v =>
    if k' = k then (k', vs ++ [v]) :: rest else (k', vs) :: bucketAdd rest k v

/-- Group the elements of `l` by `f`, in insertion order. -/
def groupBy [DecidableEq κ] (f : α → κ) (l : List α) : List (κ × List α) :=
  l.foldl (fun bs a => bucketAdd bs (f a) a) []

/-! ### `HashDeduplicator` -/

/-- A member `(item_id, i, meta)` of a hash bucket. -/
abbrev Member := String × Nat × Meta

/-- Python `ids or [f"item_{i}" ...]`: an absent or empty list is
replaced by positional ids. -/
def effIds (ids : Option (List String)) (n : Nat) : List String :=
  match ids with
  | none => positionalIds n
  | some l => if l.isEmpty then positionalIds n else l

/-- Python `metadatas or [{}] * len(contents)`. -/
def effMetas (metadatas : Option (List Meta)) (n : Nat) : List Meta :=
  match metadatas with
  | none => List.replicate n []
  | some l => if l.isEmpty then List.replicate n [] else l

/-- `HashDeduplicator._select_keep`: index of the member with the most
metadata entries, earliest on ties (strict-improvement scan from
`(best_idx, best_meta_count) = (0, 0)`). -/
def selectKeep (group : List Member) : Nat :=
  ((pyEnum group).foldl
    (fun best p =>
      if p.2.2.2.length > best.2 then (p.1, p.2.2.2.length) else best)
    (0, 0)).1

/-- The `(h, (item_id, i, meta))` pairs produced by the main loop of
`find_duplicates`, in iteration order. -/
def hashPairs (contents : List String) (ids : List String)
    (metas : List Meta) (normalize : Bool) : List (String × Member) :=
  (pyEnum (zip3 contents ids metas)).map
    (fun p =>
      let text := if normalize then normalizeText p.2.1 else p.2.1
      (contentHash text, (p.2.2.1, p.1, p.2.2.2)))

/-- The hash-keyed buckets built by the main loop of `find_duplicates`
(a dict in insertion order). -/
def hashBuckets (contents : List String) (ids : List String)
    (metas : List Meta) (normalize : Bool) : List (String × List Member) :=
  (hashPairs contents ids metas normalize).foldl
    (fun bs p => bucketAdd bs p.1 p.2) []

/-- Turn a bucket of size > 1 into a `DuplicateGroup`
(lines 92–104 of `hash_dedup.py`). -/
def hashGroupOf (h : String) (group : List Member) : DuplicateGroup :=
  let keepIdx := selectKeep group
  { hash_value := h
    ids := group.map (fun m => m.1)
    keep_id := (group.getD keepIdx ("", 0, [])).1
    remove_ids :=
      (pyEnum group).filterMap
        (fun p => if p.1 = keepIdx then none else some p.2.1) }

/-- `HashDeduplicator.find_duplicates`. -/
def findDuplicates (contents : List String) (ids : Option (List String))
    (metadatas : Option (List Meta)) (normalize : Bool) : DedupResult :=
  let n := contents.length
  let buckets := hashBuckets contents (effIds ids n) (effMetas metadatas n)
    normalize
  let dupGroups := buckets.filterMap
    (fun b => if b.2.length > 1 then some (hashGroupOf b.1 b.2) else none)
  { total_items := n
    unique_items := buckets.length
    duplicate_groups := dupGroups
    removed_ids := (dupGroups.map (fun g => g.remove_ids)).flatten }

/-! ### `SemanticDeduplicator`

Embedding vectors are idealised as exact rationals.  The code first
normalises each row to unit L2 norm (`norms == 0` replaced by 1) and then
compares dot products of normalised rows against the threshold; the
decidable test `simGE` below is proved equivalent to that real-valued
comparison in `simGE_iff_cosineGE`. -/

/-- Dot product of two embedding rows. -/
def dotp (v w : List ℚ) : ℚ := (List.zipWith (· * ·) v w).sum

/-- Squared L2 norm of a row. -/
def sqNorm (v : List ℚ) : ℚ := (v.map (fun x => x * x)).sum

/-- Square of the effective norm used for normalisation:
`np.where(norms == 0, 1, norms)`. -/
def normSq (v : List ℚ) : ℚ := if sqNorm v = 0 then 1 else sqNorm v

/-- The real-valued condition of the source,
`normalized[i] @ normalized[j] >= threshold`, i.e.
`t ≤ (v·w) / (‖v‖ * ‖w‖)` with zero norms replaced by 1. -/
def cosineGE (v w : List ℚ) (t : ℚ) : Prop :=
  (t : ℝ) ≤ (dotp v w : ℝ) /
    (Real.sqrt ((normSq v : ℚ) : ℝ) * Real.sqrt ((normSq w : ℚ) : ℝ))

/-- Decidable form of `cosineGE` (sign analysis plus squaring). -/
def simGE (v w : List ℚ) (t : ℚ) : Bool :=
  let d := dotp v w
  if 0 ≤ t then
    decide (0 ≤ d) && decide (t ^ 2 * (normSq v * normSq w) ≤ d ^ 2)
  else
    decide (0 ≤ d) || decide (d ^ 2 ≤ t ^ 2 * (normSq v * normSq w))

/-- Python `np.array(embeddings)` succeeds only on non-ragged input. -/
def sameLen (es : List (List ℚ)) : Bool :=
  match es with
  | [] => true
  | v :: rest => rest.all (fun w => w.length == v.length)

/-- Functional update of the union-find parent map (`parent[x] = v`). -/
def pupd (p : Nat → Nat) (x v : Nat) : Nat → Nat :=
  fun y => if y = x then v else p y

/-- The inner `find` with path halving:
`while parent[x] != x: parent[x] = parent[parent[x]]; x = parent[x]`.
The fuel is always called with the number of items, which suffices
(`findPH_spec`). -/
def findPH : Nat → (Nat → Nat) → Nat → Nat × (Nat → Nat)
  | 0, p, x => (x, p)
  | fuel + 1, p, x =>
    if p x = x then (x, p)
    else findPH fuel (pupd p x (p (p x))) (p (p x))

/-- The inner `union`: `rx, ry = find(x), find(y); if rx != ry:
parent[rx] = ry`. -/
def unionUF (fuel : Nat) (p : Nat → Nat) (x y : Nat) : Nat → Nat :=
  let fx := findPH fuel p x
  let fy := findPH fuel fx.2 y
  if fx.1 ≠ fy.1 then pupd fy.2 fx.1 fy.1 else fy.2

/-- `range(0, n, bs)` for `bs > 0` (the batch starts). -/
def batchStarts (n bs : Nat) : List Nat :=
  if bs = 0 then [] else (List.range ((n + bs - 1) / bs)).map (· * bs)

/-- The `(global_i, j)` pairs visited by the batched similarity loop, in
order: for each batch start `i`, rows `global_i = i + bi` of the batch,
and columns `j in range(global_i + 1, n)`. -/
def pairSeq (n bs : Nat) : List (Nat × Nat) :=
  (batchStarts n bs).flatMap (fun i =>
    (List.range' i (min bs (n - i))).flatMap (fun gi =>
      (List.range' (gi + 1) (n - (gi + 1))).map (fun j => (gi, j))))

/-- `threshold = threshold or self.threshold`: Python treats `0.0` as
falsy, so a passed threshold of `0` also falls back to the config value. -/
def effectiveThreshold (cfgT : ℚ) (threshold : Option ℚ) : ℚ :=
  match threshold with
  | none => cfgT
  | some t => if t = 0 then cfgT else t

/-- The union-find state after the batched similarity loop. -/
def ufAfterPairs (es : List (List ℚ)) (t : ℚ) (bs : Nat) : Nat → Nat :=
  let n := es.length
  (pairSeq n bs).foldl
    (fun p ij =>
      if simGE (es.getD ij.1 []) (es.getD ij.2 []) t then
        unionUF n p ij.1 ij.2
      else p)
    (fun x => x)

/-- The root-keyed buckets collected by the final loop of
`find_near_duplicates` (a dict in insertion order, with path-compressing
`find` calls threaded through). -/
def collectBuckets (n : Nat) (p0 : Nat → Nat) :
    (Nat → Nat) × List (Nat × List Nat) :=
  (List.range n).foldl
    (fun st i =>
      let f := findPH n st.1 i
      (f.2, bucketAdd st.2 f.1 i))
    (p0, [])

/-- The root-keyed semantic buckets (a dict in insertion order, with
path-compressing `find` calls threaded through the collection loop). -/
def semBuckets (es : List (List ℚ)) (t : ℚ) (bs : Nat) :
    List (Nat × List Nat) :=
  (collectBuckets es.length (ufAfterPairs es t bs)).2

/-- The `DuplicateGroup`s built from buckets of size > 1
(lines 88–97 of `semantic_dedup.py`). -/
def semGroups (es : List (List ℚ)) (t : ℚ) (bs : Nat) (ids : List String) :
    List DuplicateGroup :=
  (semBuckets es t bs).filterMap (fun b =>
    if b.2.length > 1 then
      some { hash_value := "semantic_group_" ++ toString b.1
             ids := b.2.map (fun m => ids.getD m "")
             keep_id := ids.getD (b.2.getD 0 0) ""
             remove_ids := (b.2.drop 1).map (fun m => ids.getD m "") }
    else none)

/-- `SemanticDeduplicator.find_near_duplicates`.  Raises (returns
`.error`) where numpy would: on ragged input (`np.array`) and on an empty
embedding list (`np.linalg.norm(..., axis=1)` on a 1-d array). -/
def findNearDuplicates (cfgT : ℚ) (bs : Nat) (embeddings : List (List ℚ))
    (ids : Option (List String)) (threshold : Option ℚ) :
    Except String DedupResult :=
  let t := effectiveThreshold cfgT threshold
  if ¬ sameLen embeddings then
    .error "ValueError: ragged embeddings"
  else if embeddings.length = 0 then
    .error "AxisError: axis 1 is out of bounds for array of dimension 1"
  else
    let dupGroups := semGroups embeddings t bs
      (effIds ids embeddings.length)
    .ok { total_items := embeddings.length
          unique_items := (semBuckets embeddings t bs).length
          duplicate_groups := dupGroups
          removed_ids := (dupGroups.map (fun g => g.remove_ids)).flatten }

/-! ### `DedupEngine` -/

/-- The note built for the hash phase of `full_dedup`. -/
def hashNote (r : DedupResult) : String :=
  "Found " ++ toString r.duplicate_count ++ " exact duplicates in " ++
    toString r.duplicate_groups.length ++ " groups"

/-- The note built for the semantic phase of `full_dedup`. -/
def semanticNote (r : DedupResult) : String :=
  "Found " ++ toString r.duplicate_count ++
    " near-duplicates by embedding similarity"

/-- `DedupEngine.full_dedup`.  An exception escaping the semantic phase
(ragged embeddings, or an out-of-range `embeddings[i]`) aborts the run. -/
def fullDedup (cfgT : ℚ) (bs : Nat) (contents : List String)
    (ids : Option (List String)) (metadatas : Option (List Meta))
    (embeddings : Option (List (List ℚ))) (dryRun : Bool) :
    Except String FullDedupReport :=
  let n := contents.length
  let ids := effIds ids n
  let metas := effMetas metadatas n
  let hashResult := findDuplicates contents (some ids) (some metas) true
  let actions :=
    if hashResult.duplicate_count > 0 then [hashNote hashResult] else []
  match embeddings with
  | none =>
    .ok { hash_result := hashResult, semantic_result := none
          actions_taken := actions }
  | some embs =>
    let remainingIdx := (pyEnum ids).filterMap
      (fun p => if p.2 ∈ hashResult.removed_ids then none else some p.1)
    if remainingIdx.length > 1 then
      if remainingIdx.all (fun i => i < embs.length) then
        match findNearDuplicates cfgT bs
            (remainingIdx.map (fun i => embs.getD i []))
            (some (remainingIdx.map (fun i => ids.getD i ""))) none with
        | .error e => .error e
        | .ok sr =>
          .ok { hash_result := hashResult, semantic_result := some sr
                actions_taken :=
                  actions ++
                    if sr.duplicate_count > 0 then [semanticNote sr] else [] }
      else .error "IndexError: embeddings index out of range"
    else
      .ok { hash_result := hashResult, semantic_result := none
            actions_taken := actions }

/-- The union of removable ids collected in apply mode. -/
def allRemoveIds (rep : FullDedupReport) : List String :=
  rep.hash_result.removed_ids ++
    (match rep.semantic_result with
     | some s => s.removed_ids
     | none => [])

/-- The final action note of apply mode. -/
def deletedNote (n : Nat) : String :=
  "Deleted " ++ toString n ++ " duplicate chunks from ChromaDB"

/-- `DedupEngine.dedup_chromadb_collection`, given the data fetched from
the store.  Returns the report together with the list of delete calls
issued (each a batch of ids, in order). -/
def dedupChromadbCollection (cfgT : ℚ) (bs : Nat) (contents : List String)
    (ids : List String) (metadatas : List Meta)
    (embeddings : Option (List (List ℚ))) (dryRun : Bool) :
    Except String (FullDedupReport × List (List String)) :=
  match fullDedup cfgT bs contents (some ids) (some metadatas) embeddings
      dryRun with
  | .error e => .error e
  | .ok rep =>
    if dryRun then .ok (rep, [])
    else
      let remove := allRemoveIds rep
      if remove.isEmpty then .ok (rep, [])
      else
        .ok ({ rep with
                actions_taken :=
                  rep.actions_taken ++ [deletedNote remove.length] },
          chunksOf bs remove)

/-! ### Generic facts about insertion-ordered buckets -/

section Buckets

variable {κ α : Type} [DecidableEq κ]

/-- Buckets built from an explicit key/value pair list. -/
def bucketsOfPairs (l : List (κ × α)) : List (κ × List α) :=
  l.foldl (fun bs p => bucketAdd bs p.1 p.2) []

theorem bucketsOfPairs_append (l : List (κ × α)) (p : κ × α) :
    bucketsOfPairs (l ++ [p]) = bucketAdd (bucketsOfPairs l) p.1 p.2 := by
  simp [bucketsOfPairs, List.foldl_append]

theorem groupBy_eq_bucketsOfPairs (f : α → κ) (l : List α) :
    groupBy f l = bucketsOfPairs (l.map (fun a => (f a, a))) := by
  simp [groupBy, bucketsOfPairs, List.foldl_map]

theorem keys_bucketAdd (bs : List (κ × List α)) (k : κ) (v : α) :
    (bucketAdd bs k v).map Prod.fst =
      if k ∈ bs.map Prod.fst then bs.map Prod.fst
      else bs.map Prod.fst ++ [k] := by
  induction bs with
  | nil => simp [bucketAdd]
  | cons b rest ih =>
    obtain ⟨k', vs⟩ := b
    by_cases h : k' = k
    · subst h
      simp [bucketAdd]
    · simp only [bucketAdd, if_neg h, List.map_cons, ih]
      by_cases hmem : k ∈ rest.map Prod.fst
      · simp [hmem, Ne.symm h]
      · simp [hmem, Ne.symm h]

theorem keysNodup_bucketAdd (bs : List (κ × List α)) (k : κ) (v : α)
    (h : (bs.map Prod.fst).Nodup) :
    ((bucketAdd bs k v).map Prod.fst).Nodup := by
  rw [keys_bucketAdd]
  by_cases hmem : k ∈ bs.map Prod.fst
  · simpa [hmem]
  · simpa [hmem, List.nodup_append]

theorem keysNodup_bucketsOfPairs (l : List (κ × α)) :
    ((bucketsOfPairs l).map Prod.fst).Nodup := by
  induction l using List.reverseRecOn with
  | nil => simp [bucketsOfPairs]
  | append_singleton l p ih =>
    rw [bucketsOfPairs_append]
    exact keysNodup_bucketAdd _ _ _ ih

theorem mem_bucketAdd (bs : List (κ × List α)) (k : κ) (v : α) (k' : κ)
    (ms : List α) (hk : (bs.map Prod.fst).Nodup) :
    ((k', ms) ∈ bucketAdd bs k v) ↔
      (if k' = k then
        (∃ ms0, (k, ms0) ∈ bs ∧ ms = ms0 ++ [v]) ∨
          (k ∉ bs.map Prod.fst ∧ ms = [v])
       else (k', ms) ∈ bs) := by
  induction bs generalizing ms with
  | nil => by_cases h : k' = k <;> simp [bucketAdd, h]
  | cons b rest ih =>
    obtain ⟨k0, vs⟩ := b
    simp only [List.map_cons, List.nodup_cons] at hk
    by_cases h0 : k0 = k
    · subst h0
      by_cases h : k' = k0
      · subst h
        simp only [bucketAdd, if_pos rfl, if_pos rfl]
        constructor
        · intro hmem
          rcases List.mem_cons.mp hmem with heq | hmem'
          · have h2 : ms = vs ++ [v] := congrArg Prod.snd heq
            exact Or.inl ⟨vs, List.mem_cons_self _ _, h2⟩
          · exact absurd (List.mem_map.mpr ⟨(k', ms), hmem', rfl⟩) hk.1
        · intro hcase
          rcases hcase with ⟨ms0, hmem, hms⟩ | ⟨hnot, _⟩
          · rcases List.mem_cons.mp hmem with heq | hmem'
            · have h2 : ms0 = vs := congrArg Prod.snd heq
              subst h2; subst hms; exact List.mem_cons_self _ _
            · exact absurd (List.mem_map.mpr ⟨(k', ms0), hmem', rfl⟩) hk.1
          · exact absurd (by simp : k' ∈ List.map Prod.fst ((k', vs) :: rest))
              hnot
      · simp only [bucketAdd, if_pos rfl, if_neg h]
        constructor
        · intro hmem
          rcases List.mem_cons.mp hmem with heq | hmem'
          · exact absurd (congrArg Prod.fst heq) h
          · exact List.mem_cons_of_mem _ hmem'
        · intro hmem
          rcases List.mem_cons.mp hmem with heq | hmem'
          · exact absurd (congrArg Prod.fst heq) h
          · exact List.mem_cons_of_mem _ hmem'
    · simp only [bucketAdd, if_neg h0]
      by_cases h : k' = k
      · subst h
        simp only [if_pos rfl] at ih ⊢
        rw [List.mem_cons, ih ms hk.2]
        constructor
        · intro hcase
          rcases hcase with heq | hrest
          · exact absurd (congrArg Prod.fst heq).symm h0
          · rcases hrest with ⟨ms0, hmem, hms⟩ | ⟨hnot, hms⟩
            · exact Or.inl ⟨ms0, List.mem_cons_of_mem _ hmem, hms⟩
            · refine Or.inr ⟨?_, hms⟩
              simp only [List.map_cons, List.mem_cons]
              rintro (hbad | hbad)
              · exact h0 hbad.symm
              · exact hnot hbad
        · intro hcase
          rcases hcase with ⟨ms0, hmem, hms⟩ | ⟨hnot, hms⟩
          · rcases List.mem_cons.mp hmem with heq | hmem'
            · exact absurd (congrArg Prod.fst heq).symm h0
            · exact Or.inr (Or.inl ⟨ms0, hmem', hms⟩)
          · simp only [List.map_cons, List.mem_cons, not_or] at hnot
            exact Or.inr (Or.inr ⟨hnot.2, hms⟩)
      · simp only [if_neg h] at ih ⊢
        rw [List.mem_cons, ih ms hk.2, List.mem_cons]

/-- The bucket for `k` holds exactly the values of the pairs keyed `k`,
in order. -/
theorem mem_bucketsOfPairs (l : List (κ × α)) (k : κ) (ms : List α) :
    (k, ms) ∈ bucketsOfPairs l ↔
      k ∈ l.map Prod.fst ∧
        ms = (l.filter (fun p => decide (p.1 = k))).map Prod.snd := by
  induction l using List.reverseRecOn generalizing k ms with
  | nil => simp [bucketsOfPairs]
  | append_singleton l p ih =>
    obtain ⟨k0, v⟩ := p
    rw [bucketsOfPairs_append,
      mem_bucketAdd _ _ _ _ _ (keysNodup_bucketsOfPairs l)]
    have hkeys : ∀ k1, k1 ∈ (bucketsOfPairs l).map Prod.fst ↔
        k1 ∈ l.map Prod.fst := by
      intro k1
      constructor
      · intro hbad
        obtain ⟨⟨k2, ms2⟩, hq, hq1⟩ := List.mem_map.mp hbad
        subst hq1
        exact ((ih k2 ms2).mp hq).1
      · intro hbad
        exact List.mem_map.mpr
          ⟨(k1, (l.filter (fun p => decide (p.1 = k1))).map Prod.snd),
            (ih _ _).mpr ⟨hbad, rfl⟩, rfl⟩
    by_cases h : k = k0
    · subst h
      simp only [if_pos rfl, List.filter_append, List.map_append]
      have hsingle : List.filter (fun p => decide (p.1 = k)) [(k, v)]
          = [(k, v)] := by simp
      constructor
      · rintro (⟨ms0, hmem, hms⟩ | ⟨hnot, hms⟩)
        · obtain ⟨hkin, hms0⟩ := (ih k ms0).mp hmem
          refine ⟨by simp, ?_⟩
          rw [hsingle, hms, hms0]
          simp
        · have hknotin : ¬ k ∈ l.map Prod.fst := fun hbad =>
            hnot ((hkeys k).mpr hbad)
          refine ⟨by simp, ?_⟩
          have hfilter : l.filter (fun p => decide (p.1 = k)) = [] := by
            rw [List.filter_eq_nil]
            intro p hp
            simp only [decide_eq_true_eq]
            intro hbad
            exact hknotin (List.mem_map.mpr ⟨p, hp, hbad⟩)
          simp [hfilter, hsingle, hms]
      · rintro ⟨-, hms⟩
        rw [hsingle] at hms
        by_cases hkin : k ∈ l.map Prod.fst
        · refine Or.inl ⟨(l.filter (fun p => decide (p.1 = k))).map Prod.snd,
            (ih _ _).mpr ⟨hkin, rfl⟩, by simpa using hms⟩
        · refine Or.inr ⟨fun hbad => hkin ((hkeys k).mp hbad), ?_⟩
          have hfilter : l.filter (fun p => decide (p.1 = k)) = [] := by
            rw [List.filter_eq_nil]
            intro p hp
            simp only [decide_eq_true_eq]
            intro hbad
            exact hkin (List.mem_map.mpr ⟨p, hp, hbad⟩)
          simpa [hfilter] using hms
    · have hsingle : List.filter (fun p => decide (p.1 = k)) [(k0, v)]
          = [] := by simp [Ne.symm h]
      have hmap : k ∈ List.map Prod.fst (l ++ [(k0, v)]) ↔
          k ∈ List.map Prod.fst l := by
        rw [List.map_append, List.mem_append]
        simp [h]
      rw [if_neg h, ih k ms, List.filter_append, hsingle, List.append_nil,
        hmap]

/-- Total bucket size. -/
def sumLens (bs : List (κ × List α)) : Nat :=
  (bs.map (fun b => b.2.length)).sum

theorem sumLens_bucketAdd (bs : List (κ × List α)) (k : κ) (v : α) :
    sumLens (bucketAdd bs k v) = sumLens bs + 1 := by
  induction bs with
  | nil => simp [bucketAdd, sumLens]
  | cons b rest ih =>
    obtain ⟨k', vs⟩ := b
    by_cases h : k' = k
    · simp [bucketAdd, h, sumLens]
      omega
    · simp [bucketAdd, h, sumLens] at ih ⊢
      omega

theorem sumLens_bucketsOfPairs (l : List (κ × α)) :
    sumLens (bucketsOfPairs l) = l.length := by
  induction l using List.reverseRecOn with
  | nil => simp [bucketsOfPairs, sumLens]
  | append_singleton l p ih =>
    rw [bucketsOfPairs_append, sumLens_bucketAdd, ih]
    simp

theorem bucketsOfPairs_nonempty (l : List (κ × α)) (k : κ) (ms : List α)
    (h : (k, ms) ∈ bucketsOfPairs l) : ms ≠ [] := by
  obtain ⟨hkin, hms⟩ := (mem_bucketsOfPairs l k ms).mp h
  obtain ⟨p, hp, hp1⟩ := List.mem_map.mp hkin
  subst hms
  intro hbad
  have : p ∈ l.filter (fun p => decide (p.1 = k)) :=
    List.mem_filter.mpr ⟨hp, by simp [hp1]⟩
  rw [List.map_eq_nil] at hbad
  simp [hbad] at this

end Buckets

theorem hashBuckets_eq (contents ids : List String) (metas : List Meta)
    (nm : Bool) :
    hashBuckets contents ids metas nm =
      bucketsOfPairs (hashPairs contents ids metas nm) := rfl

/-! ### Small list facts -/

theorem enumFrom_length (l : List α) : ∀ k, (enumFrom k l).length = l.length := by
  induction l with
  | nil => intro k; rfl
  | cons a as ih => intro k; simp [enumFrom, ih]

theorem pyEnum_length (l : List α) : (pyEnum l).length = l.length :=
  enumFrom_length l 0

theorem mem_enumFrom (l : List α) : ∀ (k : Nat) (p : Nat × α),
    p ∈ enumFrom k l ↔
      ∃ j, j < l.length ∧ p.1 = k + j ∧ l.getD j p.2 = p.2 := by
  induction l with
  | nil => intro k p; simp [enumFrom]
  | cons a as ih =>
    intro k p
    simp only [enumFrom, List.mem_cons, ih]
    constructor
    · rintro (heq | ⟨j, hj, hp1, hp2⟩)
      · exact ⟨0, by simp, by simp [heq], by simp [heq]⟩
      · exact ⟨j + 1, by simpa using hj, by omega, by simpa using hp2⟩
    · rintro ⟨j, hj, hp1, hp2⟩
      match j with
      | 0 =>
        left
        simp only [List.getD_cons_zero] at hp2
        obtain ⟨p1, p2⟩ := p
        simp_all
      | j' + 1 =>
        right
        exact ⟨j', by simpa using hj, by omega, by simpa using hp2⟩

theorem zip3_length (as : List α) (bs : List β) (cs : List γ) :
    (zip3 as bs cs).length = min as.length (min bs.length cs.length) := by
  induction as generalizing bs cs with
  | nil => simp [zip3]
  | cons a as ih =>
    match bs, cs with
    | [], _ => simp [zip3]
    | _ :: _, [] => simp [zip3]
    | b :: bs', c :: cs' =>
      simp only [zip3, List.length_cons, ih]
      omega

theorem zip3_getD (as : List α) (bs : List β) (cs : List γ)
    (da : α) (db : β) (dc : γ) :
    ∀ i, i < (zip3 as bs cs).length →
      (zip3 as bs cs).getD i (da, db, dc) =
        (as.getD i da, bs.getD i db, cs.getD i dc) := by
  induction as generalizing bs cs with
  | nil => intro i hi; simp [zip3] at hi
  | cons a as ih =>
    match bs, cs with
    | [], _ => intro i hi; simp [zip3] at hi
    | _ :: _, [] => intro i hi; simp [zip3] at hi
    | b :: bs', c :: cs' =>
      intro i hi
      match i with
      | 0 => simp [zip3]
      | i' + 1 =>
        simp only [zip3, List.length_cons] at hi
        simpa [zip3] using ih bs' cs' i' (by omega)

theorem positionalIds_length (n : Nat) : (positionalIds n).length = n := by
  simp [positionalIds]

theorem effIds_length (ids : Option (List String)) (n : Nat)
    (h : ∀ l, ids = some l → l.length = n) : (effIds ids n).length = n := by
  match ids with
  | none => simp [effIds, positionalIds_length]
  | some l =>
    by_cases hl : l.isEmpty
    · simp [effIds, hl, positionalIds_length]
    · simpa [effIds, hl] using h l rfl

theorem effMetas_length (metas : Option (List Meta)) (n : Nat)
    (h : ∀ l, metas = some l → l.length = n) : (effMetas metas n).length = n := by
  match metas with
  | none => simp [effMetas]
  | some l =>
    by_cases hl : l.isEmpty
    · simp [effMetas, hl]
    · simpa [effMetas, hl] using h l rfl

theorem hashPairs_length (contents ids : List String) (metas : List Meta)
    (nm : Bool) :
    (hashPairs contents ids metas nm).length =
      min contents.length (min ids.length metas.length) := by
  simp [hashPairs, pyEnum_length, zip3_length]

/-- Positionwise characterisation of the hash pairs. -/
theorem hashPairs_mem (contents ids : List String) (metas : List Meta)
    (nm : Bool) (q : String × Member)
    (hq : q ∈ hashPairs contents ids metas nm) :
    ∃ i, i < (zip3 contents ids metas).length ∧
      q = (contentHash
            (if nm then normalizeText (contents.getD i "")
             else contents.getD i ""),
           (ids.getD i "", i, metas.getD i [])) := by
  simp only [hashPairs, List.mem_map] at hq
  obtain ⟨p, hp, hq⟩ := hq
  simp only [pyEnum] at hp
  rw [mem_enumFrom] at hp
  obtain ⟨j, hj, hp1, hp2⟩ := hp
  refine ⟨j, hj, ?_⟩
  have hz := zip3_getD contents ids metas "" "" [] j hj
  have hlen := zip3_length contents ids metas
  have hja : j < contents.length := by omega
  have hjb : j < ids.length := by omega
  have hjc : j < metas.length := by omega
  have hget : (zip3 contents ids metas).getD j p.2 = p.2 := hp2
  have hget2 : (zip3 contents ids metas).getD j p.2 =
      (zip3 contents ids metas).getD j ("", "", []) := by
    rw [List.getD_eq_getElem?_getD, List.getD_eq_getElem?_getD,
      List.getElem?_eq_getElem (by omega)]
    simp
  rw [hget2, hz] at hget
  subst hq
  rw [← hget, hp1]
  simp

/-! ### `_select_keep`: first index with the most metadata entries -/

/-- Metadata entry count of the member at index `j` of a bucket. -/
def metaCount (g : List Member) (j : Nat) : Nat :=
  (g.getD j ("", 0, [])).2.2.length

/-- The accumulator invariant of the `_select_keep` scan after the first
`m` members. -/
def SKInv (g : List Member) (m : Nat) (b : Nat × Nat) : Prop :=
  ((b.1 = 0 ∧ b.2 = 0) ∨ (b.1 < m ∧ metaCount g b.1 = b.2 ∧ 0 < b.2)) ∧
    (∀ j, j < m → metaCount g j ≤ b.2) ∧
    (∀ j, j < b.1 → metaCount g j < b.2)

theorem selectKeep_fold (g : List Member) :
    ∀ (l : List Member) (m : Nat) (b : Nat × Nat), l = g.drop m →
      m ≤ g.length → SKInv g m b →
      SKInv g g.length
        ((enumFrom m l).foldl
          (fun best p =>
            if p.2.2.2.length > best.2 then (p.1, p.2.2.2.length) else best)
          b) := by
  intro l
  induction l with
  | nil =>
    intro m b hl hm hinv
    have : g.length ≤ m := by
      have := congrArg List.length hl
      simp [List.length_drop] at this
      omega
    have hm' : m = g.length := by omega
    subst hm'
    simpa [enumFrom] using hinv
  | cons a rest ih =>
    intro m b hl hm hinv
    have hmlt : m < g.length := by
      have := congrArg List.length hl
      simp [List.length_drop] at this
      omega
    have hrest : rest = g.drop (m + 1) := by
      have h1 : (g.drop m).tail = g.drop (m + 1) := by
        rw [← List.drop_drop]
        simp
      rw [← h1, ← hl]
      rfl
    have ha : a = g.getD m ("", 0, []) := by
      have h0 : (g.drop m).getD 0 ("", 0, []) = g.getD m ("", 0, []) := by
        rw [List.getD_eq_getElem?_getD, List.getD_eq_getElem?_getD,
          List.getElem?_drop]
        norm_num
      rw [← hl] at h0
      simpa using h0
    have hcnt : a.2.2.length = metaCount g m := by rw [ha]; rfl
    simp only [enumFrom, List.foldl_cons]
    by_cases hgt : a.2.2.length > b.2
    · rw [if_pos hgt]
      refine ih (m + 1) (m, a.2.2.length) hrest (by omega) ?_
      refine ⟨Or.inr ⟨by omega, hcnt.symm, by omega⟩, ?_, ?_⟩
      · intro j hj
        by_cases hjm : j < m
        · have := hinv.2.1 j hjm
          omega
        · have : j = m := by omega
          subst this
          omega
      · intro j hj
        have := hinv.2.1 j hj
        omega
    · rw [if_neg hgt]
      refine ih (m + 1) b hrest (by omega) ?_
      refine ⟨?_, ?_, hinv.2.2⟩
      · rcases hinv.1 with h1 | h1
        · exact Or.inl h1
        · exact Or.inr ⟨by omega, h1.2.1, h1.2.2⟩
      · intro j hj
        by_cases hjm : j < m
        · exact hinv.2.1 j hjm
        · have : j = m := by omega
          subst this
          omega

/-- `_select_keep` returns an in-range index whose member has maximal
metadata count, strictly larger than every earlier member's count. -/
theorem selectKeep_spec (g : List Member) (h : g ≠ []) :
    selectKeep g < g.length ∧
      (∀ j, j < g.length → metaCount g j ≤ metaCount g (selectKeep g)) ∧
      (∀ j, j < selectKeep g → metaCount g j < metaCount g (selectKeep g)) := by
  have h0 : SKInv g 0 (0, 0) := by
    refine ⟨Or.inl ⟨rfl, rfl⟩, ?_, ?_⟩ <;> intro j hj <;> omega
  have hfin := selectKeep_fold g g 0 (0, 0) (by simp) (by omega) h0
  have hlen : 0 < g.length := List.length_pos.mpr h
  set res := (enumFrom 0 g).foldl
    (fun best p =>
      if p.2.2.2.length > best.2 then (p.1, p.2.2.2.length) else best)
    (0, 0) with hres
  have hsk : selectKeep g = res.1 := rfl
  rcases hfin.1 with h1 | h1
  · have hzero : ∀ j, j < g.length → metaCount g j = 0 := by
      intro j hj
      have := hfin.2.1 j hj
      omega
    refine ⟨by omega, ?_, ?_⟩
    · intro j hj
      have := hzero j hj
      omega
    · intro j hj
      rw [hsk, h1.1] at hj
      omega
  · refine ⟨by rw [hsk]; omega, ?_, ?_⟩
    · intro j hj
      have := hfin.2.1 j hj
      rw [hsk, h1.2.1]
      omega
    · intro j hj
      rw [hsk] at hj
      have := hfin.2.2 j hj
      rw [hsk, h1.2.1]
      omega

theorem selectKeep_lt (g : List Member) (h : g ≠ []) :
    selectKeep g < g.length := (selectKeep_spec g h).1

/-! ### Counting removals -/

theorem filterMap_enum_skip_none (l : List α) (f : Nat × α → β) :
    ∀ (s k : Nat), k < s →
      ((enumFrom s l).filterMap
        (fun p => if p.1 = k then none else some (f p))) =
        (enumFrom s l).map f := by
  induction l with
  | nil => intro s k _; rfl
  | cons a rest ih =>
    intro s k hk
    simp only [enumFrom, List.filterMap_cons, List.map_cons]
    rw [if_neg (by omega)]
    rw [ih (s + 1) k (by omega)]

theorem filterMap_enum_skip_len (l : List α) (f : Nat × α → β) :
    ∀ (s k : Nat), s ≤ k → k < s + l.length →
      ((enumFrom s l).filterMap
        (fun p => if p.1 = k then none else some (f p))).length =
        l.length - 1 := by
  induction l with
  | nil => intro s k h1 h2; simp at h2; omega
  | cons a rest ih =>
    intro s k h1 h2
    simp only [enumFrom, List.filterMap_cons]
    by_cases hs : s = k
    · rw [if_pos hs, filterMap_enum_skip_none rest f (s + 1) k (by omega)]
      simp [enumFrom_length]
    · rw [if_neg hs]
      simp only [List.length_cons]
      have hrest : (((enumFrom (s + 1) rest).filterMap
          (fun p => if p.1 = k then none else some (f p))).length) =
          rest.length - 1 := by
        apply ih (s + 1) k (by omega)
        simp only [List.length_cons] at h2
        omega
      have hr : 1 ≤ rest.length := by
        simp only [List.length_cons] at h2
        omega
      simp only [List.length_cons, hrest]
      omega

theorem hashGroupOf_remove_length (h : String) (g : List Member)
    (hne : g ≠ []) :
    (hashGroupOf h g).remove_ids.length = g.length - 1 := by
  have hk := selectKeep_lt g hne
  simp only [hashGroupOf, pyEnum]
  exact filterMap_enum_skip_len g _ 0 (selectKeep g) (by omega) (by omega)

/-- Each nonempty bucket of size `s` contributes `s - 1` removals; with
`B` buckets in total, `removals + B = total`. -/
theorem dupGroups_removed_sum {κ α : Type} (BS : List (κ × List α))
    (G : κ → List α → DuplicateGroup)
    (hG : ∀ k ms, ms ≠ [] → (G k ms).remove_ids.length = ms.length - 1)
    (hne : ∀ k ms, (k, ms) ∈ BS → ms ≠ []) :
    ((BS.filterMap
        (fun b => if b.2.length > 1 then some (G b.1 b.2) else none)).map
      (fun g => g.remove_ids.length)).sum + BS.length = sumLens BS := by
  induction BS with
  | nil => simp [sumLens]
  | cons b rest ih =>
    obtain ⟨k, ms⟩ := b
    have hmsne : ms ≠ [] := hne k ms (List.mem_cons_self _ _)
    have hms1 : 1 ≤ ms.length := List.length_pos.mpr hmsne
    have ihr := ih (fun k' ms' hmem => hne k' ms' (List.mem_cons_of_mem _ hmem))
    by_cases hlen : ms.length > 1
    · simp only [List.filterMap_cons, if_pos hlen, List.map_cons,
        List.sum_cons, List.length_cons, sumLens, List.map_cons]
      have := hG k ms hmsne
      simp only [sumLens] at ihr
      omega
    · simp only [List.filterMap_cons, if_neg hlen, List.length_cons, sumLens,
        List.map_cons, List.sum_cons]
      simp only [sumLens] at ihr
      omega

/-! ### The accounting invariant of `DedupResult` -/

theorem hashBuckets_nonempty (contents ids : List String) (metas : List Meta)
    (nm : Bool) (k : String) (ms : List Member)
    (h : (k, ms) ∈ hashBuckets contents ids metas nm) : ms ≠ [] := by
  rw [hashBuckets_eq] at h
  exact bucketsOfPairs_nonempty _ _ _ h

theorem sumLens_hashBuckets (contents ids : List String) (metas : List Meta)
    (nm : Bool) :
    sumLens (hashBuckets contents ids metas nm) =
      min contents.length (min ids.length metas.length) := by
  rw [hashBuckets_eq, sumLens_bucketsOfPairs, hashPairs_length]

/-- `unique_items + |removed_ids| = total_items` for the hash phase,
whenever the optional inputs (if supplied) match `contents` in length. -/
theorem findDuplicates_inv (contents : List String)
    (ids : Option (List String)) (metas : Option (List Meta)) (nm : Bool)
    (hid : ∀ l, ids = some l → l.length = contents.length)
    (hmt : ∀ l, metas = some l → l.length = contents.length) :
    (findDuplicates contents ids metas nm).unique_items +
        (findDuplicates contents ids metas nm).removed_ids.length =
      (findDuplicates contents ids metas nm).total_items := by
  set n := contents.length with hn
  set B := hashBuckets contents (effIds ids n) (effMetas metas n) nm with hB
  have hne : ∀ k ms, (k, ms) ∈ B → ms ≠ [] := fun k ms hmem =>
    hashBuckets_nonempty _ _ _ _ _ _ hmem
  have hsum := dupGroups_removed_sum B hashGroupOf
    (fun k ms h => hashGroupOf_remove_length k ms h) hne
  have hlens : sumLens B = n := by
    rw [hB, sumLens_hashBuckets, effIds_length _ _ hid,
      effMetas_length _ _ hmt]
    omega
  have hres : (findDuplicates contents ids metas nm).removed_ids.length =
      ((B.filterMap
          (fun b => if b.2.length > 1 then some (hashGroupOf b.1 b.2)
            else none)).map
        (fun g => g.remove_ids.length)).sum := by
    simp only [findDuplicates, List.length_flatten, List.map_map]
    rfl
  have huniq : (findDuplicates contents ids metas nm).unique_items =
      B.length := rfl
  have htot : (findDuplicates contents ids metas nm).total_items = n := rfl
  omega

/-! ### Reduction of the stateful semantic bucket collection -/

/-- The `(root, i)` pairs produced by the group-collection loop, with the
path-compressing `find` state threaded through. -/
def rootsSeq (n : Nat) (p : Nat → Nat) : List Nat → List (Nat × Nat)
  | [] => []
  | i :: rest =>
    ((findPH n p i).1, i) :: rootsSeq n (findPH n p i).2 rest

theorem collectBuckets_fold (n : Nat) :
    ∀ (l : List Nat) (st : Nat → Nat) (bs : List (Nat × List Nat)),
      (l.foldl
          (fun st i =>
            let f := findPH n st.1 i
            (f.2, bucketAdd st.2 f.1 i))
          (st, bs)).2 =
        (rootsSeq n st l).foldl (fun b p => bucketAdd b p.1 p.2) bs := by
  intro l
  induction l with
  | nil => intro st bs; rfl
  | cons i rest ih =>
    intro st bs
    simp only [List.foldl_cons, rootsSeq]
    exact ih (findPH n st i).2 _

theorem collectBuckets_snd (n : Nat) (p0 : Nat → Nat) :
    (collectBuckets n p0).2 = bucketsOfPairs (rootsSeq n p0 (List.range n)) := by
  simp only [collectBuckets, bucketsOfPairs]
  exact collectBuckets_fold n (List.range n) p0 []

theorem rootsSeq_map_snd (n : Nat) :
    ∀ (l : List Nat) (p : Nat → Nat), (rootsSeq n p l).map Prod.snd = l := by
  intro l
  induction l with
  | nil => intro p; rfl
  | cons i rest ih => intro p; simp [rootsSeq, ih]

theorem rootsSeq_length (n : Nat) (l : List Nat) (p : Nat → Nat) :
    (rootsSeq n p l).length = l.length := by
  have := congrArg List.length (rootsSeq_map_snd n l p)
  simpa using this

/-- `unique_items + |removed_ids| = total_items` for any `DedupResult`
actually returned by the semantic phase. -/
theorem findNearDuplicates_inv (cfgT : ℚ) (bs : Nat)
    (es : List (List ℚ)) (ids : Option (List String)) (th : Option ℚ)
    (res : DedupResult)
    (h : findNearDuplicates cfgT bs es ids th = .ok res) :
    res.unique_items + res.removed_ids.length = res.total_items := by
  simp only [findNearDuplicates] at h
  split at h
  · exact absurd h (by simp)
  · split at h
    · exact absurd h (by simp)
    · rw [Except.ok.injEq] at h
      subst h
      set n := es.length with hn
      set t' := effectiveThreshold cfgT th with ht'
      have hBeq : semBuckets es t' bs = bucketsOfPairs
          (rootsSeq n (ufAfterPairs es t' bs) (List.range n)) :=
        collectBuckets_snd _ _
      have hne : ∀ k ms, (k, ms) ∈ semBuckets es t' bs → ms ≠ [] := by
        intro k ms hmem
        rw [hBeq] at hmem
        exact bucketsOfPairs_nonempty _ _ _ hmem
      have hsum := dupGroups_removed_sum (semBuckets es t' bs)
        (fun k ms =>
          { hash_value := "semantic_group_" ++ toString k
            ids := ms.map (fun m => (effIds ids n).getD m "")
            keep_id := (effIds ids n).getD (ms.getD 0 0) ""
            remove_ids := (ms.drop 1).map
              (fun m => (effIds ids n).getD m "") })
        (by
          intro k ms hne'
          simp [List.length_drop])
        hne
      have hlens : sumLens (semBuckets es t' bs) = n := by
        rw [hBeq, sumLens_bucketsOfPairs, rootsSeq_length]
        simp
      have hsg : semGroups es t' bs (effIds ids n) =
          (semBuckets es t' bs).filterMap
            (fun b => if b.2.length > 1 then
              some { hash_value := "semantic_group_" ++ toString b.1
                     ids := b.2.map (fun m => (effIds ids n).getD m "")
                     keep_id := (effIds ids n).getD (b.2.getD 0 0) ""
                     remove_ids := (b.2.drop 1).map
                       (fun m => (effIds ids n).getD m "") }
              else none) := rfl
      simp only [List.length_flatten, List.map_map, Function.comp_def]
      rw [hsg]
      simp only [Function.comp_def] at hsum
      omega

/-! ### Union-find correctness

`Reaches p x k r` says: starting from `x` and following `p`, the root `r`
(a fixpoint of `p`) is reached in exactly `k` steps. -/

inductive Reaches (p : Nat → Nat) : Nat → Nat → Nat → Prop where
  | root (x : Nat) : p x = x → Reaches p x 0 x
  | step (x k r : Nat) : p x ≠ x → Reaches p (p x) k r → Reaches p x (k + 1) r

theorem Reaches.fix {p : Nat → Nat} {x k r : Nat}
    (h : Reaches p x k r) : p r = r := by
  induction h with
  | root _ h => exact h
  | step _ _ _ _ _ ih => exact ih

theorem Reaches.unique {p : Nat → Nat} {x k r k' r' : Nat}
    (h : Reaches p x k r) (h' : Reaches p x k' r') : k = k' ∧ r = r' := by
  induction h generalizing k' r' with
  | root x hx =>
    cases h' with
    | root _ _ => exact ⟨rfl, rfl⟩
    | step _ _ _ hne _ => exact absurd hx hne
  | step x k r hne htail ih =>
    cases h' with
    | root _ hx => exact absurd hx hne
    | step _ k'' _ _ htail' =>
      obtain ⟨h1, h2⟩ := ih htail'
      exact ⟨by omega, h2⟩

theorem Reaches.tail {p : Nat → Nat} {x k r : Nat} (hk : 0 < k)
    (h : Reaches p x k r) : p x ≠ x ∧ Reaches p (p x) (k - 1) r := by
  cases h with
  | root _ _ => omega
  | step _ _ _ hne htail => exact ⟨hne, by simpa using htail⟩

theorem Reaches.iterate {p : Nat → Nat} {x k r : Nat}
    (h : Reaches p x k r) : ∀ j, j ≤ k → Reaches p (p^[j] x) (k - j) r := by
  intro j
  induction j generalizing x k with
  | zero => intro _; simpa using h
  | succ j ih =>
    intro hj
    have h1 := h.tail (by omega)
    rw [Function.iterate_succ_apply]
    have h2 := ih h1.2 (by omega)
    rw [show k - (j + 1) = k - 1 - j by omega]
    exact h2

/-- A whole chain avoiding the updated node is unaffected by the update. -/
theorem Reaches.pupd_avoid {p : Nat → Nat} {x g : Nat} :
    ∀ {z m s : Nat}, Reaches p z m s → (∀ j, j ≤ m → p^[j] z ≠ x) →
      Reaches (pupd p x g) z m s := by
  intro z m s h
  induction h with
  | root z hz =>
    intro havoid
    have hzx : z ≠ x := by simpa using havoid 0 (by omega)
    exact Reaches.root z (by simpa [pupd, hzx] using hz)
  | step z k r hne htail ih =>
    intro havoid
    have hzx : z ≠ x := by simpa using havoid 0 (by omega)
    have hp : pupd p x g z = p z := by simp [pupd, hzx]
    refine Reaches.step z k r (by simpa [hp] using hne) ?_
    rw [hp]
    refine ih ?_
    intro j hj
    have := havoid (j + 1) (by omega)
    simpa [Function.iterate_succ_apply] using this

/-- After one halving step `parent[x] = parent[parent[x]]`, the grandparent
still reaches the same root, strictly faster. -/
theorem halve_g_reaches {p : Nat → Nat} {x k r : Nat} (hx : p x ≠ x)
    (hr : Reaches p x k r) :
    ∃ kg, kg + 1 ≤ k ∧ Reaches (pupd p x (p (p x))) (p (p x)) kg r := by
  cases hr with
  | root _ hroot => exact absurd hroot hx
  | step _ k1 _ hne htail =>
    by_cases hpp : p (p x) = p x
    · obtain ⟨hk1, hr1⟩ := htail.unique (Reaches.root (p x) hpp)
      refine ⟨0, by omega, ?_⟩
      rw [hr1, hpp]
      refine Reaches.root _ ?_
      simp only [pupd, if_neg hne]
      exact hpp
    · cases htail with
      | root _ hroot1 => exact absurd hroot1 hpp
      | step _ k2 _ hne2 htail2 =>
        refine ⟨k2, by omega, ?_⟩
        refine htail2.pupd_avoid ?_
        intro j hj hbad
        have hit := htail2.iterate j hj
        rw [hbad] at hit
        have hfull : Reaches p x (k2 + 1 + 1) r :=
          Reaches.step _ _ _ hne (Reaches.step _ _ _ hne2 htail2)
        obtain ⟨hk, -⟩ := hfull.unique hit
        omega

/-- Path halving preserves every node's root (weakly shortening its
chain). -/
theorem halve_preserve {p : Nat → Nat} {x : Nat} (hx : p x ≠ x)
    {kx rx : Nat} (hrx : Reaches p x kx rx) :
    ∀ {z m s : Nat}, Reaches p z m s →
      ∃ m' ≤ m, Reaches (pupd p x (p (p x))) z m' s := by
  intro z m s h
  induction h with
  | root z hz =>
    have hzx : z ≠ x := fun hbad => hx (hbad ▸ hz)
    exact ⟨0, le_refl 0, Reaches.root z (by simpa [pupd, hzx] using hz)⟩
  | step z k r hne htail ih =>
    by_cases hzx : z = x
    · subst hzx
      obtain ⟨hk, hr⟩ := hrx.unique (Reaches.step z k r hne htail)
      subst hr
      obtain ⟨kg, hkg, hg⟩ := halve_g_reaches hx hrx
      have hgne : p (p z) ≠ z := by
        intro hbad
        by_cases hpp : p (p z) = p z
        · exact hx (hpp.symm.trans hbad)
        · have hzk : 2 ≤ kx := by
            cases hrx with
            | root _ hroot => exact absurd hroot hx
            | step _ k1 _ _ htail1 =>
              cases htail1 with
              | root _ hroot1 => exact absurd hroot1 hpp
              | step _ _ _ _ _ => omega
          have t1 := hrx.tail (by omega)
          have t2 := t1.2.tail (by omega)
          rw [hbad] at t2
          obtain ⟨hcon, -⟩ := hrx.unique t2.2
          omega
      refine ⟨kg + 1, by omega, ?_⟩
      refine Reaches.step z kg rx ?_ ?_
      · simp only [pupd, if_pos rfl]
        exact hgne
      · simp only [pupd, if_pos rfl]
        exact hg
    · obtain ⟨m', hm', hrec⟩ := ih
      have hp : pupd p x (p (p x)) z = p z := by simp [pupd, hzx]
      exact ⟨m' + 1, by omega,
        Reaches.step z m' r (by simpa [hp] using hne) (by rwa [hp])⟩

/-- Invariant of the union-find state over `n` items: every node reaches
a root, indices below `n` stay below `n`, and indices at or above `n` are
untouched. -/
structure UFInv (n : Nat) (p : Nat → Nat) : Prop where
  rooted : ∀ z, ∃ k r, Reaches p z k r
  bound : ∀ z, z < n → p z < n
  ident : ∀ z, n ≤ z → p z = z

/-- Weak root preservation between two states. -/
def SameRootsLe (p q : Nat → Nat) : Prop :=
  ∀ z m s, Reaches p z m s → ∃ m' ≤ m, Reaches q z m' s

theorem SameRootsLe.refl_self (p : Nat → Nat) : SameRootsLe p p :=
  fun _ m s h => ⟨m, le_refl m, h⟩

theorem SameRootsLe.trans_le {p q w : Nat → Nat} (h1 : SameRootsLe p q)
    (h2 : SameRootsLe q w) : SameRootsLe p w := by
  intro z m s h
  obtain ⟨m1, hm1, hq⟩ := h1 z m s h
  obtain ⟨m2, hm2, hw⟩ := h2 z m1 s hq
  exact ⟨m2, by omega, hw⟩

theorem UFInv.halve {n : Nat} {p : Nat → Nat} (h : UFInv n p) {x : Nat}
    (hx : p x ≠ x) : UFInv n (pupd p x (p (p x))) := by
  obtain ⟨kx, rx, hrx⟩ := h.rooted x
  refine ⟨?_, ?_, ?_⟩
  · intro z
    obtain ⟨k, r, hr⟩ := h.rooted z
    obtain ⟨m', -, hr'⟩ := halve_preserve hx hrx hr
    exact ⟨m', r, hr'⟩
  · intro z hz
    by_cases hzx : z = x
    · subst hzx
      simp only [pupd, if_pos rfl]
      exact h.bound _ (h.bound _ hz)
    · simp only [pupd, if_neg hzx]
      exact h.bound _ hz
  · intro z hz
    have hzx : z ≠ x := by
      intro hbad
      subst hbad
      exact hx (h.ident z hz)
    simp only [pupd, if_neg hzx]
    exact h.ident z hz

theorem findPH_spec {n : Nat} :
    ∀ (fuel : Nat) (p : Nat → Nat) (x k r : Nat), UFInv n p →
      Reaches p x k r → k ≤ fuel →
      (findPH fuel p x).1 = r ∧ SameRootsLe p (findPH fuel p x).2 ∧
        UFInv n (findPH fuel p x).2 := by
  intro fuel
  induction fuel with
  | zero =>
    intro p x k r hinv hr hk
    have hk0 : k = 0 := by omega
    subst hk0
    cases hr with
    | root _ _ => exact ⟨rfl, SameRootsLe.refl_self p, hinv⟩
  | succ fuel ih =>
    intro p x k r hinv hr hk
    by_cases hx : p x = x
    · cases hr with
      | root _ _ =>
        simp only [findPH, if_pos hx]
        exact ⟨trivial, SameRootsLe.refl_self p, hinv⟩
      | step _ _ _ hne _ => exact absurd hx hne
    · obtain ⟨kg, hkg, hg⟩ := halve_g_reaches hx hr
      have hinv' := hinv.halve hx
      have hrec := ih (pupd p x (p (p x))) (p (p x)) kg r hinv' hg
        (by omega)
      have hsr : SameRootsLe p (pupd p x (p (p x))) := by
        obtain ⟨kx, rx, hrx⟩ := hinv.rooted x
        intro z m s hzm
        exact halve_preserve hx hrx hzm
      simp only [findPH, if_neg hx]
      exact ⟨hrec.1, hsr.trans_le hrec.2.1, hrec.2.2⟩

theorem findPH_inv {n : Nat} :
    ∀ (fuel : Nat) (p : Nat → Nat) (x : Nat), UFInv n p →
      UFInv n (findPH fuel p x).2 ∧ SameRootsLe p (findPH fuel p x).2 := by
  intro fuel
  induction fuel with
  | zero => intro p x hinv; exact ⟨hinv, SameRootsLe.refl_self p⟩
  | succ fuel ih =>
    intro p x hinv
    by_cases hx : p x = x
    · simp only [findPH, if_pos hx]
      exact ⟨hinv, SameRootsLe.refl_self p⟩
    · have hinv' := hinv.halve hx
      have hrec := ih (pupd p x (p (p x))) (p (p x)) hinv'
      have hsr : SameRootsLe p (pupd p x (p (p x))) := by
        obtain ⟨kx, rx, hrx⟩ := hinv.rooted x
        intro z m s hzm
        exact halve_preserve hx hrx hzm
      simp only [findPH, if_neg hx]
      exact ⟨hrec.1, hsr.trans_le hrec.2⟩

/-- Under the invariant, chains of nodes below `n` are shorter than `n`. -/
theorem reaches_lt {n : Nat} {p : Nat → Nat} (h : UFInv n p) (x : Nat)
    (hx : x < n) : ∃ k r, k < n ∧ Reaches p x k r := by
  obtain ⟨k, r, hr⟩ := h.rooted x
  refine ⟨k, r, ?_, hr⟩
  by_contra hcon
  push_neg at hcon
  set L := (List.range (k + 1)).map (fun j => p^[j] x) with hL
  have hmem : ∀ a ∈ L, a < n := by
    intro a ha
    rw [hL, List.mem_map] at ha
    obtain ⟨j, -, hj⟩ := ha
    subst hj
    clear hcon hr
    induction j with
    | zero => simpa using hx
    | succ j ihj =>
      rw [Function.iterate_succ_apply']
      exact h.bound _ ihj
  have hnodup : L.Nodup := by
    rw [hL]
    refine List.Nodup.map_on ?_ (List.nodup_range _)
    intro i hi j hj hij
    rw [List.mem_range] at hi hj
    have h1 := hr.iterate i (by omega)
    have h2 := hr.iterate j (by omega)
    rw [hij] at h1
    obtain ⟨heq, -⟩ := h2.unique h1
    omega
  have hlen : L.length = k + 1 := by simp [hL]
  have hsub : L.toFinset ⊆ Finset.range n := by
    intro a ha
    rw [List.mem_toFinset] at ha
    rw [Finset.mem_range]
    exact hmem a ha
  have hcard := Finset.card_le_card hsub
  rw [Finset.card_range, List.toFinset_card_of_nodup hnodup, hlen] at hcard
  omega

/-- `r` is the root of `z` in state `p`. -/
def RootOf (p : Nat → Nat) (z r : Nat) : Prop := ∃ k, Reaches p z k r

/-- `a` and `b` lie in the same union-find set. -/
def EquivUF (p : Nat → Nat) (a b : Nat) : Prop :=
  ∃ r, RootOf p a r ∧ RootOf p b r

theorem RootOf.unique_root {p : Nat → Nat} {z r r' : Nat} (h : RootOf p z r)
    (h' : RootOf p z r') : r = r' := by
  obtain ⟨k, hk⟩ := h
  obtain ⟨k', hk'⟩ := h'
  exact (hk.unique hk').2

theorem EquivUF.refl {p : Nat → Nat} (hroot : ∀ z, ∃ k r, Reaches p z k r)
    (a : Nat) : EquivUF p a a := by
  obtain ⟨k, r, h⟩ := hroot a
  exact ⟨r, ⟨k, h⟩, ⟨k, h⟩⟩

theorem EquivUF.symm {p : Nat → Nat} {a b : Nat} (h : EquivUF p a b) :
    EquivUF p b a := by
  obtain ⟨r, h1, h2⟩ := h
  exact ⟨r, h2, h1⟩

theorem EquivUF.trans {p : Nat → Nat} {a b c : Nat} (h : EquivUF p a b)
    (h' : EquivUF p b c) : EquivUF p a c := by
  obtain ⟨r, h1, h2⟩ := h
  obtain ⟨r', h3, h4⟩ := h'
  rw [h2.unique_root h3] at h1
  exact ⟨r', h1, h4⟩

theorem RootOf.transport {p q : Nat → Nat} (hpq : SameRootsLe p q)
    {z r : Nat} (h : RootOf p z r) : RootOf q z r := by
  obtain ⟨k, hk⟩ := h
  obtain ⟨m', -, h'⟩ := hpq z k r hk
  exact ⟨m', h'⟩

theorem rootOf_iff {p q : Nat → Nat} (hpq : SameRootsLe p q)
    (hroot : ∀ z, ∃ k r, Reaches p z k r) (z r : Nat) :
    RootOf q z r ↔ RootOf p z r := by
  constructor
  · intro h
    obtain ⟨k0, r0, h0⟩ := hroot z
    have h1 : RootOf q z r0 := RootOf.transport hpq ⟨k0, h0⟩
    rw [h.unique_root h1]
    exact ⟨k0, h0⟩
  · exact RootOf.transport hpq

theorem equivUF_iff {p q : Nat → Nat} (hpq : SameRootsLe p q)
    (hroot : ∀ z, ∃ k r, Reaches p z k r) (a b : Nat) :
    EquivUF q a b ↔ EquivUF p a b := by
  constructor
  · rintro ⟨r, h1, h2⟩
    exact ⟨r, (rootOf_iff hpq hroot a r).mp h1, (rootOf_iff hpq hroot b r).mp h2⟩
  · rintro ⟨r, h1, h2⟩
    exact ⟨r, RootOf.transport hpq h1, RootOf.transport hpq h2⟩

/-- Chains stay below `n` end to end. -/
theorem Reaches.root_lt {n : Nat} {p : Nat → Nat} (h : UFInv n p)
    {x k r : Nat} (hr : Reaches p x k r) (hx : x < n) : r < n := by
  induction hr with
  | root z hz => exact hx
  | step z k r hne htail ih => exact ih (h.bound z hx)

/-- Linking root `rx` under root `ry` reroutes exactly the `rx`-class. -/
theorem reaches_link {p2 : Nat → Nat} {rx ry : Nat} (hrx : p2 rx = rx)
    (hry : p2 ry = ry) (hne : rx ≠ ry) :
    ∀ {z m s : Nat}, Reaches p2 z m s →
      (s = rx → Reaches (pupd p2 rx ry) z (m + 1) ry) ∧
        (s ≠ rx → Reaches (pupd p2 rx ry) z m s) := by
  intro z m s h
  induction h with
  | root z hz =>
    constructor
    · intro hs
      -- here `s = z`, so `z = rx` and the new chain is `rx → ry`
      have hzrx : z = rx := hs
      rw [hzrx]
      have hroot' : Reaches (pupd p2 rx ry) ry 0 ry :=
        Reaches.root ry (by simp [pupd, Ne.symm hne, hry])
      have hupd : pupd p2 rx ry rx = ry := by simp [pupd]
      refine Reaches.step rx 0 ry ?_ ?_
      · rw [hupd]
        exact Ne.symm hne
      · rw [hupd]
        exact hroot'
    · intro hs
      have hzrx : z ≠ rx := hs
      exact Reaches.root z (by simpa [pupd, hzrx] using hz)
  | step z k r hne2 htail ih =>
    have hzrx : z ≠ rx := by
      intro hbad
      subst hbad
      exact hne2 hrx
    have hp : pupd p2 rx ry z = p2 z := by simp [pupd, hzrx]
    constructor
    · intro hs
      refine Reaches.step z (k + 1) ry (by simpa [hp] using hne2) ?_
      rw [hp]
      exact ih.1 hs
    · intro hs
      refine Reaches.step z k r (by simpa [hp] using hne2) ?_
      rw [hp]
      exact ih.2 hs

/-- `union(x, y)` preserves the invariant and merges exactly the classes
of `x` and `y`. -/
theorem unionUF_spec {n : Nat} {p : Nat → Nat} (h : UFInv n p) {x y : Nat}
    (hx : x < n) (hy : y < n) :
    UFInv n (unionUF n p x y) ∧
      ∀ a b, EquivUF (unionUF n p x y) a b ↔
        (EquivUF p a b ∨ (EquivUF p a x ∧ EquivUF p y b) ∨
          (EquivUF p a y ∧ EquivUF p x b)) := by
  obtain ⟨kx, rx, hkx, hrx⟩ := reaches_lt h x hx
  have spec1 := @findPH_spec n n p x kx rx h hrx (by omega)
  have hf1 : (findPH n p x).1 = rx := spec1.1
  have hs1 : SameRootsLe p (findPH n p x).2 := spec1.2.1
  have hinv1 : UFInv n (findPH n p x).2 := spec1.2.2
  obtain ⟨ky, ry, hky, hry⟩ := reaches_lt hinv1 y hy
  have spec2 := @findPH_spec n n (findPH n p x).2 y ky ry hinv1 hry
    (by omega)
  set p2 := (findPH n (findPH n p x).2 y).2 with hp2
  have hf2 : (findPH n (findPH n p x).2 y).1 = ry := spec2.1
  have hs2 : SameRootsLe (findPH n p x).2 p2 := spec2.2.1
  have hinv2 : UFInv n p2 := spec2.2.2
  have hs : SameRootsLe p p2 := hs1.trans_le hs2
  have hrxP : RootOf p x rx := ⟨kx, hrx⟩
  have hryP : RootOf p y ry :=
    (rootOf_iff hs1 h.rooted y ry).mp ⟨ky, hry⟩
  have hiff2 : ∀ z r, RootOf p2 z r ↔ RootOf p z r :=
    rootOf_iff hs h.rooted
  have hEiff2 : ∀ a b, EquivUF p2 a b ↔ EquivUF p a b :=
    equivUF_iff hs h.rooted
  have hfixrx : p2 rx = rx := by
    obtain ⟨k, hk⟩ := RootOf.transport hs hrxP
    exact hk.fix
  have hfixry : p2 ry = ry := by
    obtain ⟨k, hk⟩ := RootOf.transport hs hryP
    exact hk.fix
  have hrxn : rx < n := hrx.root_lt h hx
  have hryn : ry < n := hry.root_lt hinv1 hy
  by_cases hxy : rx = ry
  · -- find(x) and find(y) agree: no new link
    have hcond : ¬ ((findPH n p x).1 ≠ (findPH n (findPH n p x).2 y).1) := by
      rw [hf1, hf2, hxy]
      simp
    have hu : unionUF n p x y = p2 := by
      simp only [unionUF]
      rw [if_neg hcond]
    rw [hu]
    refine ⟨hinv2, ?_⟩
    intro a b
    rw [hEiff2]
    have hExy : EquivUF p x y := ⟨rx, hrxP, by rw [hxy]; exact hryP⟩
    constructor
    · exact Or.inl
    · rintro (hab | ⟨h1, h2⟩ | ⟨h1, h2⟩)
      · exact hab
      · exact (h1.trans hExy).trans h2
      · exact (h1.trans hExy.symm).trans h2
  · have hcond : (findPH n p x).1 ≠ (findPH n (findPH n p x).2 y).1 := by
      rw [hf1, hf2]
      exact hxy
    have hu : unionUF n p x y = pupd p2 rx ry := by
      simp only [unionUF]
      rw [if_pos hcond, hf1, hf2]
    rw [hu]
    have hlink : ∀ {z m s : Nat}, Reaches p2 z m s →
        (s = rx → Reaches (pupd p2 rx ry) z (m + 1) ry) ∧
          (s ≠ rx → Reaches (pupd p2 rx ry) z m s) :=
      fun hd => reaches_link hfixrx hfixry hxy hd
    have hmap : ∀ z s, RootOf p2 z s →
        RootOf (pupd p2 rx ry) z (if s = rx then ry else s) := by
      rintro z s ⟨k, hd⟩
      by_cases hsrx : s = rx
      · rw [if_pos hsrx]
        exact ⟨k + 1, (hlink hd).1 hsrx⟩
      · rw [if_neg hsrx]
        exact ⟨k, (hlink hd).2 hsrx⟩
    have hrooted' : ∀ z, ∃ k r, Reaches (pupd p2 rx ry) z k r := by
      intro z
      obtain ⟨k, r, hd⟩ := hinv2.rooted z
      by_cases hsrx : r = rx
      · exact ⟨k + 1, ry, (hlink hd).1 hsrx⟩
      · exact ⟨k, r, (hlink hd).2 hsrx⟩
    constructor
    · refine ⟨hrooted', ?_, ?_⟩
      · intro z hz
        by_cases hzrx : z = rx
        · simpa [pupd, hzrx] using hryn
        · simpa [pupd, hzrx] using hinv2.bound z hz
      · intro z hz
        have hzrx : z ≠ rx := by omega
        simpa [pupd, hzrx] using hinv2.ident z hz
    · intro a b
      constructor
      · rintro ⟨r, hra, hrb⟩
        obtain ⟨ka, sa, hsa⟩ := hinv2.rooted a
        obtain ⟨kb, sb, hsb⟩ := hinv2.rooted b
        have hra' : r = if sa = rx then ry else sa :=
          hra.unique_root (hmap a sa ⟨ka, hsa⟩)
        have hrb' : r = if sb = rx then ry else sb :=
          hrb.unique_root (hmap b sb ⟨kb, hsb⟩)
        have hPa : RootOf p a sa := (hiff2 a sa).mp ⟨ka, hsa⟩
        have hPb : RootOf p b sb := (hiff2 b sb).mp ⟨kb, hsb⟩
        by_cases hsarx : sa = rx <;> by_cases hsbrx : sb = rx
        · refine Or.inl ⟨sa, hPa, ?_⟩
          rw [hsarx, ← hsbrx]
          exact hPb
        · rw [if_pos hsarx] at hra'
          rw [if_neg hsbrx] at hrb'
          refine Or.inr (Or.inl ⟨⟨rx, ?_, hrxP⟩, ⟨ry, hryP, ?_⟩⟩)
          · rw [← hsarx]
            exact hPa
          · rw [← show sb = ry by rw [← hrb', hra']]
            exact hPb
        · rw [if_neg hsarx] at hra'
          rw [if_pos hsbrx] at hrb'
          refine Or.inr (Or.inr ⟨⟨ry, ?_, hryP⟩, ⟨rx, hrxP, ?_⟩⟩)
          · rw [← show sa = ry by rw [← hra', hrb']]
            exact hPa
          · rw [← hsbrx]
            exact hPb
        · rw [if_neg hsarx] at hra'
          rw [if_neg hsbrx] at hrb'
          refine Or.inl ⟨sa, hPa, ?_⟩
          rw [show sa = sb by rw [← hra', hrb']]
          exact hPb
      · have htoP2 : ∀ z r, RootOf p z r → RootOf p2 z r := fun z r hr =>
          (hiff2 z r).mpr hr
        rintro (⟨r, hra, hrb⟩ | ⟨⟨r1, hra, hrx1⟩, ⟨r2, hry2, hrb⟩⟩ |
          ⟨⟨r1, hra, hry1⟩, ⟨r2, hrx2, hrb⟩⟩)
        · exact ⟨if r = rx then ry else r, hmap a r (htoP2 a r hra),
            hmap b r (htoP2 b r hrb)⟩
        · have h1 : r1 = rx := hrx1.unique_root hrxP
          have h2 : r2 = ry := hry2.unique_root hryP
          have ha' := hmap a rx (htoP2 a rx (by rw [← h1]; exact hra))
          have hb' := hmap b ry (htoP2 b ry (by rw [← h2]; exact hrb))
          rw [if_pos rfl] at ha'
          rw [if_neg (Ne.symm hxy)] at hb'
          exact ⟨ry, ha', hb'⟩
        · have h1 : r1 = ry := hry1.unique_root hryP
          have h2 : r2 = rx := hrx2.unique_root hrxP
          have ha' := hmap a ry (htoP2 a ry (by rw [← h1]; exact hra))
          have hb' := hmap b rx (htoP2 b rx (by rw [← h2]; exact hrb))
          rw [if_neg (Ne.symm hxy)] at ha'
          rw [if_pos rfl] at hb'
          exact ⟨ry, ha', hb'⟩

theorem eqvGen_mono_flatten {α : Type} {r r' : α → α → Prop}
    (h : ∀ u v, r u v → Relation.EqvGen r' u v) {a b : α}
    (hg : Relation.EqvGen r a b) : Relation.EqvGen r' a b := by
  induction hg with
  | rel u v huv => exact h u v huv
  | refl u => exact Relation.EqvGen.refl u
  | symm u v _ ih => exact Relation.EqvGen.symm _ _ ih
  | trans u v w _ _ ih1 ih2 => exact Relation.EqvGen.trans _ _ _ ih1 ih2

theorem eqvGen_congr {α : Type} {r r' : α → α → Prop}
    (h : ∀ u v, r u v ↔ r' u v) (a b : α) :
    Relation.EqvGen r a b ↔ Relation.EqvGen r' a b :=
  ⟨eqvGen_mono_flatten
      (fun u v hr => Relation.EqvGen.rel _ _ ((h u v).mp hr)),
    eqvGen_mono_flatten
      (fun u v hr => Relation.EqvGen.rel _ _ ((h u v).mpr hr))⟩

theorem UFInv_id (n : Nat) : UFInv n (fun x => x) :=
  ⟨fun z => ⟨0, z, Reaches.root z rfl⟩, fun _ hz => hz, fun _ _ => rfl⟩

theorem equivUF_id (a b : Nat) : EquivUF (fun x => x) a b ↔ a = b := by
  constructor
  · rintro ⟨r, ⟨k1, h1⟩, ⟨k2, h2⟩⟩
    have hfix : ∀ z m s, Reaches (fun x => x) z m s → s = z := by
      intro z m s h
      cases h with
      | root _ _ => rfl
      | step _ _ _ hne _ => exact absurd rfl hne
    rw [← hfix a k1 r h1, ← hfix b k2 r h2]
  · rintro rfl
    exact ⟨a, ⟨0, Reaches.root a rfl⟩, ⟨0, Reaches.root a rfl⟩⟩

/-- The whole batched union loop computes exactly the equivalence closure
of the processed similar pairs, on top of the starting partition. -/
theorem foldUnion_spec {n : Nat} (sim : Nat → Nat → Bool) :
    ∀ (ps : List (Nat × Nat)) (p : Nat → Nat), UFInv n p →
      (∀ ij ∈ ps, ij.1 < n ∧ ij.2 < n) →
      UFInv n (ps.foldl
        (fun q ij => if sim ij.1 ij.2 then unionUF n q ij.1 ij.2 else q) p) ∧
      ∀ a b,
        EquivUF (ps.foldl
          (fun q ij => if sim ij.1 ij.2 then unionUF n q ij.1 ij.2 else q) p)
          a b ↔
        Relation.EqvGen
          (fun u v => EquivUF p u v ∨ ((u, v) ∈ ps ∧ sim u v = true)) a b := by
  intro ps
  induction ps with
  | nil =>
    intro p hinv _
    refine ⟨hinv, fun a b => ?_⟩
    simp only [List.foldl_nil]
    have hequiv : Equivalence (EquivUF p) :=
      ⟨EquivUF.refl hinv.rooted, EquivUF.symm, EquivUF.trans⟩
    constructor
    · intro hE
      exact Relation.EqvGen.rel _ _ (Or.inl hE)
    · intro hE
      refine (Equivalence.eqvGen_iff hequiv).mp ?_
      refine eqvGen_mono_flatten ?_ hE
      rintro u v (h | h)
      · exact Relation.EqvGen.rel _ _ h
      · exact absurd h.1 (List.not_mem_nil _)
  | cons ij ps ih =>
    intro p hinv hmem
    have hbd := hmem ij (List.mem_cons_self _ _)
    have htl : ∀ q ∈ ps, q.1 < n ∧ q.2 < n := fun q hq =>
      hmem q (List.mem_cons_of_mem _ hq)
    simp only [List.foldl_cons]
    by_cases hsim : sim ij.1 ij.2 = true
    · rw [if_pos hsim]
      have huspec := unionUF_spec hinv hbd.1 hbd.2
      have hrec := ih (unionUF n p ij.1 ij.2) huspec.1 htl
      refine ⟨hrec.1, fun a b => ?_⟩
      rw [hrec.2 a b]
      constructor
      · apply eqvGen_mono_flatten
        rintro u v (hE | hrel)
        · rcases (huspec.2 u v).mp hE with hPab | ⟨h1, h2⟩ | ⟨h1, h2⟩
          · exact Relation.EqvGen.rel _ _ (Or.inl hPab)
          · refine Relation.EqvGen.trans _ _ _
              (Relation.EqvGen.rel _ _ (Or.inl h1))
              (Relation.EqvGen.trans _ _ _ ?_
                (Relation.EqvGen.rel _ _ (Or.inl h2)))
            exact Relation.EqvGen.rel _ _ (Or.inr ⟨by simp, hsim⟩)
          · refine Relation.EqvGen.trans _ _ _
              (Relation.EqvGen.rel _ _ (Or.inl h1))
              (Relation.EqvGen.trans _ _ _ ?_
                (Relation.EqvGen.rel _ _ (Or.inl h2)))
            exact Relation.EqvGen.symm _ _
              (Relation.EqvGen.rel _ _ (Or.inr ⟨by simp, hsim⟩))
        · exact Relation.EqvGen.rel _ _
            (Or.inr ⟨List.mem_cons_of_mem _ hrel.1, hrel.2⟩)
      · apply eqvGen_mono_flatten
        rintro u v (hE | ⟨hmem', hsim'⟩)
        · exact Relation.EqvGen.rel _ _
            (Or.inl ((huspec.2 u v).mpr (Or.inl hE)))
        · rcases List.mem_cons.mp hmem' with heq | hmem''
          · have hu : u = ij.1 := congrArg Prod.fst heq
            have hv : v = ij.2 := congrArg Prod.snd heq
            refine Relation.EqvGen.rel _ _ (Or.inl ?_)
            apply (huspec.2 u v).mpr
            refine Or.inr (Or.inl ⟨?_, ?_⟩)
            · rw [hu]
              exact EquivUF.refl hinv.rooted _
            · rw [hv]
              exact EquivUF.refl hinv.rooted _
          · exact Relation.EqvGen.rel _ _ (Or.inr ⟨hmem'', hsim'⟩)
    · rw [if_neg hsim]
      have hrec := ih p hinv htl
      refine ⟨hrec.1, fun a b => ?_⟩
      rw [hrec.2 a b]
      apply eqvGen_congr
      intro u v
      constructor
      · rintro (hE | ⟨hmem', hsim'⟩)
        · exact Or.inl hE
        · exact Or.inr ⟨List.mem_cons_of_mem _ hmem', hsim'⟩
      · rintro (hE | ⟨hmem', hsim'⟩)
        · exact Or.inl hE
        · rcases List.mem_cons.mp hmem' with heq | hmem''
          · exfalso
            apply hsim
            have hu : u = ij.1 := congrArg Prod.fst heq
            have hv : v = ij.2 := congrArg Prod.snd heq
            rw [← hu, ← hv]
            exact hsim'
          · exact Or.inr ⟨hmem'', hsim'⟩

/-! ### The batched pair enumeration -/

theorem mem_batchStarts {n bs q : Nat} (hbs : 0 < bs) :
    q * bs ∈ batchStarts n bs ↔ q * bs < n := by
  simp only [batchStarts, if_neg (by omega : ¬ bs = 0), List.mem_map]
  constructor
  · rintro ⟨q', hq', heq⟩
    rw [List.mem_range] at hq'
    have h1 : q' + 1 ≤ (n + bs - 1) / bs := hq'
    have h2 : (q' + 1) * bs ≤ n + bs - 1 :=
      (Nat.le_div_iff_mul_le hbs).mp h1
    have h3 : q' * bs + bs ≤ n + bs - 1 := by
      have : (q' + 1) * bs = q' * bs + bs := by ring
      omega
    omega
  · intro hlt
    refine ⟨q, ?_, rfl⟩
    rw [List.mem_range]
    have h2 : (q + 1) * bs ≤ n + bs - 1 := by
      have : (q + 1) * bs = q * bs + bs := by ring
      omega
    exact (Nat.le_div_iff_mul_le hbs).mpr h2

theorem batchStarts_mult {n bs i : Nat} (h : i ∈ batchStarts n bs) :
    ∃ q, i = q * bs ∧ i < n := by
  by_cases hbs : bs = 0
  · simp [batchStarts, hbs] at h
  · simp only [batchStarts, if_neg hbs, List.mem_map] at h
    obtain ⟨q, hq, heq⟩ := h
    rw [List.mem_range] at hq
    refine ⟨q, heq.symm, ?_⟩
    have h2 : (q + 1) * bs ≤ n + bs - 1 :=
      (Nat.le_div_iff_mul_le (by omega)).mp hq
    have h3 : (q + 1) * bs = q * bs + bs := by ring
    omega

/-- Every visited pair `(a, b)` satisfies `a < b < n`. -/
theorem pairSeq_bounds {n bs : Nat} {a b : Nat}
    (h : (a, b) ∈ pairSeq n bs) : a < b ∧ b < n := by
  simp only [pairSeq, List.mem_flatMap, List.mem_map] at h
  obtain ⟨i, hi, gi, hgi, j, hj, heq⟩ := h
  obtain ⟨q, -, hin⟩ := batchStarts_mult hi
  rw [List.mem_range'_1] at hgi hj
  have ha : a = gi := (congrArg Prod.fst heq).symm
  have hb : b = j := (congrArg Prod.snd heq).symm
  subst ha hb
  omega

/-- Every pair `a < b < n` is visited (positive batch size). -/
theorem pairSeq_complete {n bs : Nat} (hbs : 0 < bs) {a b : Nat}
    (hab : a < b) (hbn : b < n) : (a, b) ∈ pairSeq n bs := by
  simp only [pairSeq, List.mem_flatMap, List.mem_map]
  refine ⟨(a / bs) * bs, ?_, a, ?_, ⟨b, ?_, rfl⟩⟩
  · rw [mem_batchStarts hbs]
    have := Nat.div_mul_le_self a bs
    omega
  · rw [List.mem_range'_1]
    have h1 : a / bs * bs ≤ a := Nat.div_mul_le_self a bs
    have h2 : a < a / bs * bs + bs := by
      have hdm : bs * (a / bs) + a % bs = a := Nat.div_add_mod a bs
      have hmod : a % bs < bs := Nat.mod_lt a hbs
      have h3 : a / bs * bs = bs * (a / bs) := by ring
      rw [h3]
      omega
    omega
  · rw [List.mem_range'_1]
    omega

/-- The similar-pair relation actually processed by the batched loop. -/
def relSem (es : List (List ℚ)) (t : ℚ) (bs : Nat) (u v : Nat) : Prop :=
  (u, v) ∈ pairSeq es.length bs ∧
    simGE (es.getD u []) (es.getD v []) t = true

theorem ufAfterPairs_spec (es : List (List ℚ)) (t : ℚ) (bs : Nat) :
    UFInv es.length (ufAfterPairs es t bs) ∧
      ∀ a b, EquivUF (ufAfterPairs es t bs) a b ↔
        Relation.EqvGen (relSem es t bs) a b := by
  have hmem : ∀ ij ∈ pairSeq es.length bs,
      ij.1 < es.length ∧ ij.2 < es.length := by
    intro ij hij
    obtain ⟨h1, h2⟩ := @pairSeq_bounds es.length bs ij.1 ij.2
      (by simpa using hij)
    exact ⟨by omega, h2⟩
  have hf := @foldUnion_spec es.length
    (fun i j => simGE (es.getD i []) (es.getD j []) t)
    (pairSeq es.length bs) (fun x => x) (UFInv_id _) hmem
  refine ⟨hf.1, fun a b => ?_⟩
  have hstep : Relation.EqvGen
      (fun u v => EquivUF (fun x => x) u v ∨
        ((u, v) ∈ pairSeq es.length bs ∧
          simGE (es.getD u []) (es.getD v []) t = true)) a b ↔
      Relation.EqvGen (relSem es t bs) a b := by
    constructor
    · apply eqvGen_mono_flatten
      rintro u v (hE | hrel)
      · rw [equivUF_id] at hE
        subst hE
        exact Relation.EqvGen.refl u
      · exact Relation.EqvGen.rel _ _ hrel
    · apply eqvGen_mono_flatten
      intro u v hrel
      exact Relation.EqvGen.rel _ _ (Or.inr hrel)
  exact (hf.2 a b).trans hstep

/-- Every pair emitted by the collection loop records the true root of its
item relative to the state it started from. -/
theorem rootsSeq_spec {n : Nat} :
    ∀ (l : List Nat) (p : Nat → Nat), UFInv n p → (∀ i ∈ l, i < n) →
      ∀ q ∈ rootsSeq n p l, RootOf p q.2 q.1 := by
  intro l
  induction l with
  | nil => intro p _ _ q hq; simp [rootsSeq] at hq
  | cons i rest ih =>
    intro p hinv hmem q hq
    obtain ⟨k, r, hk, hr⟩ := reaches_lt hinv i (hmem i (List.mem_cons_self _ _))
    have spec := @findPH_spec n n p i k r hinv hr (by omega)
    simp only [rootsSeq, List.mem_cons] at hq
    rcases hq with heq | hq'
    · subst heq
      rw [spec.1]
      exact ⟨k, hr⟩
    · have hrec := ih (findPH n p i).2 spec.2.2
        (fun j hj => hmem j (List.mem_cons_of_mem _ hj)) q hq'
      exact (rootOf_iff spec.2.1 hinv.rooted q.2 q.1).mp hrec

theorem semBuckets_eq (es : List (List ℚ)) (t : ℚ) (bs : Nat) :
    semBuckets es t bs =
      bucketsOfPairs
        (rootsSeq es.length (ufAfterPairs es t bs)
          (List.range es.length)) := collectBuckets_snd _ _

theorem semBuckets_members (es : List (List ℚ)) (t : ℚ) (bs : Nat)
    (k : Nat) (ms : List Nat) (h : (k, ms) ∈ semBuckets es t bs) :
    ms ≠ [] ∧ ms.Nodup ∧
      ∀ i ∈ ms, i < es.length ∧ RootOf (ufAfterPairs es t bs) i k := by
  rw [semBuckets_eq] at h
  set P := rootsSeq es.length (ufAfterPairs es t bs)
    (List.range es.length) with hP
  have hchar := (mem_bucketsOfPairs P k ms).mp h
  have hsnd : P.map Prod.snd = List.range es.length := rootsSeq_map_snd _ _ _
  have hroots : ∀ q ∈ P, RootOf (ufAfterPairs es t bs) q.2 q.1 := by
    apply rootsSeq_spec _ _ (ufAfterPairs_spec es t bs).1
    intro i hi
    rw [List.mem_range] at hi
    exact hi
  refine ⟨bucketsOfPairs_nonempty P k ms h, ?_, ?_⟩
  · rw [hchar.2]
    have hsub : ((P.filter (fun p => decide (p.1 = k))).map Prod.snd).Sublist
        (P.map Prod.snd) := (List.filter_sublist _).map _
    rw [hsnd] at hsub
    exact (List.nodup_range _).sublist hsub
  · intro i hi
    rw [hchar.2, List.mem_map] at hi
    obtain ⟨q, hq, hq2⟩ := hi
    rw [List.mem_filter] at hq
    have hkey : q.1 = k := by simpa using hq.2
    have hqP : q ∈ P := hq.1
    have hin : i ∈ List.range es.length := by
      rw [← hsnd, List.mem_map]
      exact ⟨q, hqP, hq2⟩
    rw [List.mem_range] at hin
    refine ⟨hin, ?_⟩
    rw [← hq2, ← hkey]
    exact hroots q hqP

theorem semBuckets_exists (es : List (List ℚ)) (t : ℚ) (bs : Nat)
    (i : Nat) (hi : i < es.length) :
    ∃ k ms, (k, ms) ∈ semBuckets es t bs ∧ i ∈ ms := by
  rw [semBuckets_eq]
  set P := rootsSeq es.length (ufAfterPairs es t bs)
    (List.range es.length) with hP
  have hsnd : P.map Prod.snd = List.range es.length := rootsSeq_map_snd _ _ _
  have hin : i ∈ P.map Prod.snd := by
    rw [hsnd, List.mem_range]
    exact hi
  rw [List.mem_map] at hin
  obtain ⟨q, hq, hq2⟩ := hin
  refine ⟨q.1, (P.filter (fun p => decide (p.1 = q.1))).map Prod.snd, ?_, ?_⟩
  · rw [mem_bucketsOfPairs]
    exact ⟨List.mem_map.mpr ⟨q, hq, rfl⟩, rfl⟩
  · rw [List.mem_map]
    exact ⟨q, List.mem_filter.mpr ⟨hq, by simp⟩, hq2⟩

theorem semBuckets_det (es : List (List ℚ)) (t : ℚ) (bs : Nat)
    (k : Nat) (ms ms' : List Nat) (h : (k, ms) ∈ semBuckets es t bs)
    (h' : (k, ms') ∈ semBuckets es t bs) : ms = ms' := by
  rw [semBuckets_eq, mem_bucketsOfPairs] at h h'
  rw [h.2, h'.2]

/-- Two in-range items share a bucket exactly when union-find merged
them. -/
theorem semBuckets_mem_iff (es : List (List ℚ)) (t : ℚ) (bs : Nat)
    (i j : Nat) (hi : i < es.length) (hj : j < es.length) :
    (∃ k ms, (k, ms) ∈ semBuckets es t bs ∧ i ∈ ms ∧ j ∈ ms) ↔
      EquivUF (ufAfterPairs es t bs) i j := by
  constructor
  · rintro ⟨k, ms, hmem, him, hjm⟩
    have hchar := semBuckets_members es t bs k ms hmem
    exact ⟨k, (hchar.2.2 i him).2, (hchar.2.2 j hjm).2⟩
  · rintro ⟨r, hri, hrj⟩
    obtain ⟨k, ms, hmem, him⟩ := semBuckets_exists es t bs i hi
    obtain ⟨k', ms', hmem', hjm⟩ := semBuckets_exists es t bs j hj
    have hki : RootOf (ufAfterPairs es t bs) i k :=
      ((semBuckets_members es t bs k ms hmem).2.2 i him).2
    have hkj : RootOf (ufAfterPairs es t bs) j k' :=
      ((semBuckets_members es t bs k' ms' hmem').2.2 j hjm).2
    have h1 : k = r := hki.unique_root hri
    have h2 : k' = r := hkj.unique_root hrj
    have h3 : k' = k := by rw [h2, ← h1]
    rw [h3] at hmem'
    have heq := semBuckets_det es t bs k ms ms' hmem hmem'
    rw [← heq] at hjm
    exact ⟨k, ms, hmem, him, hjm⟩

/-! ### The similarity test decides the real cosine comparison -/

theorem sqNorm_nonneg (v : List ℚ) : 0 ≤ sqNorm v := by
  apply List.sum_nonneg
  intro x hx
  rw [List.mem_map] at hx
  obtain ⟨a, -, ha⟩ := hx
  rw [← ha]
  exact mul_self_nonneg a

theorem normSq_pos (v : List ℚ) : 0 < normSq v := by
  unfold normSq
  by_cases h : sqNorm v = 0
  · simp [h]
  · rw [if_neg h]
    exact lt_of_le_of_ne (sqNorm_nonneg v) (Ne.symm h)

theorem dotp_comm (v w : List ℚ) : dotp v w = dotp w v := by
  unfold dotp
  rw [List.zipWith_comm_of_comm]
  intro a b
  exact mul_comm a b

theorem simGE_symm (v w : List ℚ) (t : ℚ) : simGE v w t = simGE w v t := by
  simp only [simGE]
  rw [dotp_comm, mul_comm (normSq v) (normSq w)]

/-- For nonnegative thresholds, the rational test `simGE` decides the
source's real comparison `normalized[i] @ normalized[j] >= threshold`. -/
theorem simGE_iff_cosineGE (v w : List ℚ) (t : ℚ) (ht : 0 ≤ t) :
    simGE v w t = true ↔ cosineGE v w t := by
  have hq : simGE v w t = true ↔
      (0 ≤ dotp v w ∧ t ^ 2 * (normSq v * normSq w) ≤ (dotp v w) ^ 2) := by
    simp [simGE, if_pos ht]
  rw [hq]
  unfold cosineGE
  set d : ℝ := ((dotp v w : ℚ) : ℝ) with hd
  set Nv : ℝ := ((normSq v : ℚ) : ℝ) with hNv
  set Nw : ℝ := ((normSq w : ℚ) : ℝ) with hNw
  have hNvpos : 0 < Nv := by
    rw [hNv]
    exact_mod_cast normSq_pos v
  have hNwpos : 0 < Nw := by
    rw [hNw]
    exact_mod_cast normSq_pos w
  have hs : 0 < Real.sqrt Nv * Real.sqrt Nw :=
    mul_pos (Real.sqrt_pos.mpr hNvpos) (Real.sqrt_pos.mpr hNwpos)
  have htR : (0 : ℝ) ≤ (t : ℚ) := by exact_mod_cast ht
  have hcast : (0 ≤ dotp v w ∧
      t ^ 2 * (normSq v * normSq w) ≤ (dotp v w) ^ 2) ↔
      (0 ≤ d ∧ ((t : ℚ) : ℝ) ^ 2 * (Nv * Nw) ≤ d ^ 2) := by
    rw [hd, hNv, hNw]
    constructor
    · rintro ⟨h1, h2⟩
      exact ⟨by exact_mod_cast h1, by exact_mod_cast h2⟩
    · rintro ⟨h1, h2⟩
      exact ⟨by exact_mod_cast h1, by exact_mod_cast h2⟩
  rw [hcast, le_div_iff hs]
  have hsq : (Real.sqrt Nv * Real.sqrt Nw) ^ 2 = Nv * Nw := by
    rw [mul_pow, Real.sq_sqrt (le_of_lt hNvpos), Real.sq_sqrt (le_of_lt hNwpos)]
  constructor
  · rintro ⟨h1, h2⟩
    have hts : 0 ≤ ((t : ℚ) : ℝ) * (Real.sqrt Nv * Real.sqrt Nw) :=
      mul_nonneg htR (le_of_lt hs)
    have h3 : (((t : ℚ) : ℝ) * (Real.sqrt Nv * Real.sqrt Nw)) ^ 2 ≤ d ^ 2 := by
      rw [mul_pow, hsq]
      exact h2
    calc ((t : ℚ) : ℝ) * (Real.sqrt Nv * Real.sqrt Nw)
        = Real.sqrt ((((t : ℚ) : ℝ) * (Real.sqrt Nv * Real.sqrt Nw)) ^ 2) :=
          (Real.sqrt_sq hts).symm
      _ ≤ Real.sqrt (d ^ 2) := Real.sqrt_le_sqrt h3
      _ = d := Real.sqrt_sq h1
  · intro h1
    have hts : 0 ≤ ((t : ℚ) : ℝ) * (Real.sqrt Nv * Real.sqrt Nw) :=
      mul_nonneg htR (le_of_lt hs)
    have h0d : 0 ≤ d := le_trans hts h1
    refine ⟨h0d, ?_⟩
    have h2 : (((t : ℚ) : ℝ) * (Real.sqrt Nv * Real.sqrt Nw)) ^ 2 ≤ d ^ 2 :=
      pow_le_pow_left hts h1 2
    rw [mul_pow, hsq] at h2
    exact h2

/-! ### Structure of the hash-phase groups -/

theorem enumFrom_map_fst (l : List α) :
    ∀ k, (enumFrom k l).map Prod.fst = List.range' k l.length := by
  induction l with
  | nil => intro k; rfl
  | cons a as ih => intro k; simp [enumFrom, List.range'_succ, ih]

theorem enumFrom_map_val (l : List α) (f : α → β) :
    ∀ k, (enumFrom k l).map (fun p => f p.2) = l.map f := by
  induction l with
  | nil => intro k; rfl
  | cons a as ih => intro k; simp [enumFrom, ih]

theorem bucketsOfPairs_det {κ α : Type} [DecidableEq κ]
    (l : List (κ × α)) (k : κ) (ms ms' : List α)
    (h : (k, ms) ∈ bucketsOfPairs l) (h' : (k, ms') ∈ bucketsOfPairs l) :
    ms = ms' := by
  rw [mem_bucketsOfPairs] at h h'
  rw [h.2, h'.2]

theorem nodup_getD_inj (l : List String) (h : l.Nodup) {i j : Nat}
    (hi : i < l.length) (hj : j < l.length)
    (heq : l.getD i "" = l.getD j "") : i = j := by
  rw [List.getD_eq_getElem?_getD, List.getElem?_eq_getElem hi,
    List.getD_eq_getElem?_getD, List.getElem?_eq_getElem hj] at heq
  simp only [Option.getD_some] at heq
  have hinj := List.nodup_iff_injective_get.mp h
  have := @hinj ⟨i, hi⟩ ⟨j, hj⟩ (by simpa using heq)
  simpa using congrArg Fin.val this

/-- The values (members) of the hash pairs are pairwise distinct, since
each carries its position. -/
theorem hashPairs_values_nodup (contents ids : List String)
    (metas : List Meta) (nm : Bool) :
    ((hashPairs contents ids metas nm).map Prod.snd).Nodup := by
  have hidx : ((hashPairs contents ids metas nm).map Prod.snd).map
      (fun m => m.2.1) = List.range' 0 (zip3 contents ids metas).length := by
    rw [← enumFrom_map_fst (zip3 contents ids metas) 0]
    simp [hashPairs, pyEnum, List.map_map, Function.comp_def]
  have := List.nodup_range' 0 ((zip3 contents ids metas).length)
  rw [← hidx] at this
  exact this.of_map _

/-- A pair in `hashPairs` is determined by its member value. -/
theorem hashPairs_val_det (contents ids : List String) (metas : List Meta)
    (nm : Bool) {p q : String × Member}
    (hp : p ∈ hashPairs contents ids metas nm)
    (hq : q ∈ hashPairs contents ids metas nm) (hval : p.2 = q.2) :
    p = q := by
  obtain ⟨i, hi, hpi⟩ := hashPairs_mem contents ids metas nm p hp
  obtain ⟨j, hj, hqj⟩ := hashPairs_mem contents ids metas nm q hq
  have hidx : i = j := by
    have h1 : p.2.2.1 = i := by rw [hpi]
    have h2 : q.2.2.1 = j := by rw [hqj]
    rw [← h1, ← h2, hval]
  subst hidx
  rw [hpi, hqj]

/-- Members of one hash bucket: positional form, distinct ids (when the
input ids are distinct), and membership. -/
theorem hashBucket_members (contents ids : List String) (metas : List Meta)
    (nm : Bool) (k : String) (ms : List Member)
    (h : (k, ms) ∈ hashBuckets contents ids metas nm) :
    ms.Nodup ∧
      (∀ m ∈ ms, ∃ i, i < (zip3 contents ids metas).length ∧
        m = (ids.getD i "", i, metas.getD i []) ∧
        k = contentHash (if nm then normalizeText (contents.getD i "")
          else contents.getD i "")) := by
  rw [hashBuckets_eq] at h
  have hchar := (mem_bucketsOfPairs _ k ms).mp h
  constructor
  · rw [hchar.2]
    have hsub : ((List.filter (fun p => decide (p.1 = k))
        (hashPairs contents ids metas nm)).map Prod.snd).Sublist
        ((hashPairs contents ids metas nm).map Prod.snd) :=
      (List.filter_sublist _).map _
    exact (hashPairs_values_nodup contents ids metas nm).sublist hsub
  · intro m hm
    rw [hchar.2, List.mem_map] at hm
    obtain ⟨p, hp, hp2⟩ := hm
    rw [List.mem_filter] at hp
    obtain ⟨i, hi, hpi⟩ := hashPairs_mem contents ids metas nm p hp.1
    refine ⟨i, hi, ?_, ?_⟩
    · rw [← hp2, hpi]
    · have : p.1 = k := by simpa using hp.2
      rw [← this, hpi]

theorem hashBucket_ids_nodup (contents ids : List String)
    (metas : List Meta) (nm : Bool) (hnd : ids.Nodup) (k : String)
    (ms : List Member) (h : (k, ms) ∈ hashBuckets contents ids metas nm) :
    (ms.map (fun m => m.1)).Nodup := by
  obtain ⟨hms, hpos⟩ := hashBucket_members contents ids metas nm k ms h
  refine List.Nodup.map_on ?_ hms
  intro m1 hm1 m2 hm2 heq
  obtain ⟨i1, hi1, hm1e, -⟩ := hpos m1 hm1
  obtain ⟨i2, hi2, hm2e, -⟩ := hpos m2 hm2
  have hlen := zip3_length contents ids metas
  have hid1 : m1.1 = ids.getD i1 "" := by rw [hm1e]
  have hid2 : m2.1 = ids.getD i2 "" := by rw [hm2e]
  have : i1 = i2 := by
    apply nodup_getD_inj ids hnd (by omega) (by omega)
    rw [← hid1, ← hid2, heq]
  subst this
  rw [hm1e, hm2e]

/-- The filterMap building `remove_ids` is exactly "all member ids except
the kept one" when the member ids are distinct. -/
theorem filterMap_enum_erase (l : List Member) :
    ∀ (s k : Nat) (kv : String), s ≤ k → k < s + l.length →
      (l.getD (k - s) ("", 0, [])).1 = kv →
      (∀ j, j < l.length → j ≠ k - s → (l.getD j ("", 0, [])).1 ≠ kv) →
      (enumFrom s l).filterMap
          (fun p => if p.1 = k then none else some p.2.1) =
        (l.map (fun m => m.1)).filter (fun a => decide (¬ a = kv)) := by
  induction l with
  | nil =>
    intro s k kv h1 h2 _ _
    simp at h2
    omega
  | cons a rest ih =>
    intro s k kv h1 h2 hkeep hothers
    simp only [enumFrom, List.filterMap_cons, List.map_cons, List.filter_cons]
    by_cases hs : s = k
    · rw [if_pos hs]
      have hks : k - s = 0 := by omega
      rw [hks] at hkeep
      simp only [List.getD_cons_zero] at hkeep
      have hrest : ∀ b ∈ rest.map (fun m => m.1), decide (¬ b = kv) = true := by
        intro b hb
        rw [List.mem_map] at hb
        obtain ⟨m, hm, hmb⟩ := hb
        obtain ⟨j, hjm⟩ := List.mem_iff_get.mp hm
        have hne := hothers (j.val + 1)
          (by simp only [List.length_cons]; omega) (by omega)
        simp only [List.getD_cons_succ] at hne
        have hgd : rest.getD j.val ("", 0, []) = m := by
          rw [List.getD_eq_getElem?_getD, List.getElem?_eq_getElem j.isLt]
          simp only [Option.getD_some]
          rw [← List.get_eq_getElem]
          exact hjm
        rw [hgd] at hne
        subst hmb
        simpa using hne
      rw [filterMap_enum_skip_none rest _ (s + 1) k (by omega),
        enumFrom_map_val]
      have hfa : (decide (¬ a.1 = kv)) = false := by simp [hkeep]
      rw [hfa]
      simp only [Bool.false_eq_true, if_false]
      rw [List.filter_eq_self.mpr hrest]
    · rw [if_neg hs]
      have hk1 : k - s = (k - (s + 1)) + 1 := by omega
      have hkeep' : (rest.getD (k - (s + 1)) ("", 0, [])).1 = kv := by
        rw [hk1] at hkeep
        simpa using hkeep
      have hothers' : ∀ j, j < rest.length → j ≠ k - (s + 1) →
          (rest.getD j ("", 0, [])).1 ≠ kv := by
        intro j hj hjne
        have := hothers (j + 1)
          (by simp only [List.length_cons]; omega) (by omega)
        simpa using this
      have hlen2 : k < s + 1 + rest.length := by
        simp only [List.length_cons] at h2
        omega
      have ha : a.1 ≠ kv := by
        have := hothers 0 (by simp only [List.length_cons]; omega) (by omega)
        simpa using this
      rw [ih (s + 1) k kv (by omega) hlen2 hkeep' hothers']
      have hfa : (decide (¬ a.1 = kv)) = true := by simp [ha]
      rw [hfa]
      simp

/-! ### Structure of the semantic-phase groups -/

/-- On well-formed input the semantic phase succeeds, with this result. -/
theorem findNearDuplicates_ok (cfgT : ℚ) (bs : Nat) (es : List (List ℚ))
    (oids : Option (List String)) (th : Option ℚ)
    (hdim : sameLen es = true) (hne : es ≠ []) :
    findNearDuplicates cfgT bs es oids th = .ok
      { total_items := es.length
        unique_items :=
          (semBuckets es (effectiveThreshold cfgT th) bs).length
        duplicate_groups := semGroups es (effectiveThreshold cfgT th) bs
          (effIds oids es.length)
        removed_ids :=
          ((semGroups es (effectiveThreshold cfgT th) bs
              (effIds oids es.length)).map
            (fun g => g.remove_ids)).flatten } := by
  have h0 : ¬ es.length = 0 := by
    simpa [List.length_eq_zero] using hne
  simp only [findNearDuplicates, hdim, not_true, if_false, if_neg h0]

theorem semGroups_mem (es : List (List ℚ)) (t : ℚ) (bs : Nat)
    (ids : List String) (g : DuplicateGroup) :
    g ∈ semGroups es t bs ids ↔
      ∃ k ms, (k, ms) ∈ semBuckets es t bs ∧ ms.length > 1 ∧
        g = { hash_value := "semantic_group_" ++ toString k
              ids := ms.map (fun m => ids.getD m "")
              keep_id := ids.getD (ms.getD 0 0) ""
              remove_ids := (ms.drop 1).map (fun m => ids.getD m "") } := by
  simp only [semGroups, List.mem_filterMap]
  constructor
  · rintro ⟨⟨k, ms⟩, hmem, heq⟩
    by_cases hlen : ms.length > 1
    · rw [if_pos hlen] at heq
      exact ⟨k, ms, hmem, hlen, (Option.some.injEq _ _ ▸ heq).symm⟩
    · rw [if_neg hlen] at heq
      exact absurd heq (by simp)
  · rintro ⟨k, ms, hmem, hlen, heq⟩
    exact ⟨(k, ms), hmem, by rw [if_pos hlen, heq]⟩

theorem two_le_length_of_mem_ne {α : Type} {l : List α} {a b : α}
    (ha : a ∈ l) (hb : b ∈ l) (hab : a ≠ b) : 2 ≤ l.length := by
  match l with
  | [] => simp at ha
  | [x] =>
    simp only [List.mem_singleton] at ha hb
    exact absurd (ha.trans hb.symm) hab
  | x :: y :: rest => simp [List.length_cons]

/-- Per-group structure of the semantic phase: distinct in-range ids,
keep is a member, removals are members minus the keeper. -/
theorem semGroups_structure (es : List (List ℚ)) (t : ℚ) (bs : Nat)
    (ids : List String) (hnd : ids.Nodup) (hlen : es.length ≤ ids.length)
    (g : DuplicateGroup) (hg : g ∈ semGroups es t bs ids) :
    2 ≤ g.ids.length ∧ g.ids.Nodup ∧ (∀ a ∈ g.ids, a ∈ ids) ∧
      g.keep_id ∈ g.ids ∧
      g.remove_ids = g.ids.filter (fun a => decide (¬ a = g.keep_id)) := by
  obtain ⟨k, ms, hmem, hmslen, hgeq⟩ := (semGroups_mem es t bs ids g).mp hg
  obtain ⟨hmsne, hmsnd, hmschar⟩ := semBuckets_members es t bs k ms hmem
  have hids : g.ids = ms.map (fun m => ids.getD m "") := by rw [hgeq]
  have hinj : ∀ m1 ∈ ms, ∀ m2 ∈ ms,
      ids.getD m1 "" = ids.getD m2 "" → m1 = m2 := by
    intro m1 hm1 m2 hm2 heq
    have h1 := (hmschar m1 hm1).1
    have h2 := (hmschar m2 hm2).1
    exact nodup_getD_inj ids hnd (by omega) (by omega) heq
  refine ⟨?_, ?_, ?_, ?_, ?_⟩
  · rw [hids, List.length_map]
    omega
  · rw [hids]
    exact List.Nodup.map_on hinj hmsnd
  · intro a ha
    rw [hids, List.mem_map] at ha
    obtain ⟨m, hm, hma⟩ := ha
    have := (hmschar m hm).1
    rw [← hma, List.getD_eq_getElem?_getD, List.getElem?_eq_getElem (by omega)]
    simp only [Option.getD_some]
    exact List.getElem_mem _
  · have h0 : ms.getD 0 0 ∈ ms := by
      rw [List.getD_eq_getElem?_getD,
        List.getElem?_eq_getElem (by omega)]
      simp only [Option.getD_some]
      exact List.getElem_mem _
    rw [hgeq]
    simp only [List.mem_map]
    exact ⟨ms.getD 0 0, h0, rfl⟩
  · -- members minus the keeper, using distinctness
    obtain ⟨m0, rest, hcons⟩ : ∃ m0 rest, ms = m0 :: rest := by
      match ms, hmsne with
      | m0 :: rest, _ => exact ⟨m0, rest, rfl⟩
    subst hcons
    have hkeep : g.keep_id = ids.getD m0 "" := by rw [hgeq]; rfl
    have hrem : g.remove_ids = rest.map (fun m => ids.getD m "") := by
      rw [hgeq]; rfl
    rw [hids, hkeep, hrem, List.map_cons, List.filter_cons]
    have hcond : ¬ ((decide (¬ ids.getD m0 "" = ids.getD m0 "")) = true) := by
      simp
    rw [if_neg hcond, List.filter_eq_self.mpr]
    intro b hb
    rw [List.mem_map] at hb
    obtain ⟨m, hm, hmb⟩ := hb
    have hm0 : m0 ∈ m0 :: rest := List.mem_cons_self _ _
    have hmm : m ∈ m0 :: rest := List.mem_cons_of_mem _ hm
    have hne' : m ≠ m0 := by
      intro hbad
      subst hbad
      exact (List.nodup_cons.mp hmsnd).1 hm
    rw [← hmb]
    simp only [decide_eq_true_eq]
    intro hbad
    exact hne' (hinj m hmm m0 hm0 hbad)

/-- Distinct semantic groups never share an id. -/
theorem semGroups_disjoint (es : List (List ℚ)) (t : ℚ) (bs : Nat)
    (ids : List String) (hnd : ids.Nodup) (hlen : es.length ≤ ids.length)
    (g g' : DuplicateGroup) (hg : g ∈ semGroups es t bs ids)
    (hg' : g' ∈ semGroups es t bs ids) (hne : g ≠ g') :
    ∀ a ∈ g.ids, a ∉ g'.ids := by
  obtain ⟨k, ms, hmem, hmslen, hgeq⟩ := (semGroups_mem es t bs ids g).mp hg
  obtain ⟨k', ms', hmem', hmslen', hgeq'⟩ :=
    (semGroups_mem es t bs ids g').mp hg'
  intro a ha ha'
  have hchar := semBuckets_members es t bs k ms hmem
  have hchar' := semBuckets_members es t bs k' ms' hmem'
  rw [hgeq] at ha
  rw [hgeq'] at ha'
  simp only [List.mem_map] at ha ha'
  obtain ⟨m, hm, hma⟩ := ha
  obtain ⟨m', hm', hma'⟩ := ha'
  have hmn := (hchar.2.2 m hm).1
  have hmn' := (hchar'.2.2 m' hm').1
  have hmm' : m = m' := by
    apply nodup_getD_inj ids hnd (by omega) (by omega)
    rw [hma, hma']
  subst hmm'
  have hk : k = k' :=
    ((hchar.2.2 m hm).2).unique_root ((hchar'.2.2 m hm').2)
  subst hk
  have hms : ms = ms' := semBuckets_det es t bs k ms ms' hmem hmem'
  subst hms
  exact hne (by rw [hgeq, hgeq'])

theorem map_fst_getD (ms : List Member) (j : Nat) (hj : j < ms.length) :
    (ms.map (fun m => m.1)).getD j "" = (ms.getD j ("", 0, [])).1 := by
  rw [List.getD_eq_getElem?_getD, List.getD_eq_getElem?_getD,
    List.getElem?_eq_getElem (by simpa using hj), List.getElem?_eq_getElem hj]
  simp

theorem hashGroupOf_keep_mem (k : String) (ms : List Member)
    (hne : ms ≠ []) :
    (hashGroupOf k ms).keep_id ∈ (hashGroupOf k ms).ids := by
  have hk := selectKeep_lt ms hne
  simp only [hashGroupOf, List.mem_map]
  refine ⟨ms.getD (selectKeep ms) ("", 0, []), ?_, rfl⟩
  rw [List.getD_eq_getElem?_getD, List.getElem?_eq_getElem hk]
  simp only [Option.getD_some]
  exact List.getElem_mem _

theorem hashGroupOf_remove_eq (k : String) (ms : List Member)
    (hne : ms ≠ []) (hnd : (ms.map (fun m => m.1)).Nodup) :
    (hashGroupOf k ms).remove_ids =
      (hashGroupOf k ms).ids.filter
        (fun a => decide (¬ a = (hashGroupOf k ms).keep_id)) := by
  have hk := selectKeep_lt ms hne
  have hothers : ∀ j, j < ms.length → j ≠ selectKeep ms - 0 →
      (ms.getD j ("", 0, [])).1 ≠
        (ms.getD (selectKeep ms - 0) ("", 0, [])).1 := by
    intro j hj hjne hbad
    apply hjne
    apply nodup_getD_inj (ms.map (fun m => m.1)) hnd
      (by simpa using hj) (by simpa using (by omega : selectKeep ms - 0 < ms.length))
    rw [map_fst_getD ms j hj, map_fst_getD ms _ (by omega)]
    exact hbad
  have h := filterMap_enum_erase ms 0 (selectKeep ms)
    ((ms.getD (selectKeep ms - 0) ("", 0, [])).1) (by omega) (by omega)
    rfl hothers
  simp only [hashGroupOf, pyEnum]
  rw [h]
  have hsk : selectKeep ms - 0 = selectKeep ms := by omega
  rw [hsk]

theorem hashGroups_mem (contents : List String) (ids : Option (List String))
    (metas : Option (List Meta)) (nm : Bool) (g : DuplicateGroup) :
    g ∈ (findDuplicates contents ids metas nm).duplicate_groups ↔
      ∃ k ms, (k, ms) ∈ hashBuckets contents (effIds ids contents.length)
          (effMetas metas contents.length) nm ∧ ms.length > 1 ∧
        g = hashGroupOf k ms := by
  simp only [findDuplicates, List.mem_filterMap]
  constructor
  · rintro ⟨⟨k, ms⟩, hmem, heq⟩
    by_cases hlen : ms.length > 1
    · rw [if_pos hlen] at heq
      exact ⟨k, ms, hmem, hlen, (Option.some.injEq _ _ ▸ heq).symm⟩
    · rw [if_neg hlen] at heq
      exact absurd heq (by simp)
  · rintro ⟨k, ms, hmem, hlen, heq⟩
    exact ⟨(k, ms), hmem, by rw [if_pos hlen, heq]⟩

/-- Distinct hash buckets never share a member id (distinct input ids). -/
theorem hashBuckets_disjoint (contents il : List String) (ml : List Meta)
    (nm : Bool) (hnd : il.Nodup) (k k' : String) (ms ms' : List Member)
    (hmem : (k, ms) ∈ hashBuckets contents il ml nm)
    (hmem' : (k', ms') ∈ hashBuckets contents il ml nm)
    (hne : (k, ms) ≠ (k', ms')) (a : String)
    (ha : a ∈ ms.map (fun m => m.1)) (ha' : a ∈ ms'.map (fun m => m.1)) :
    False := by
  obtain ⟨-, hpos⟩ := hashBucket_members contents il ml nm k ms hmem
  obtain ⟨-, hpos'⟩ := hashBucket_members contents il ml nm k' ms' hmem'
  rw [List.mem_map] at ha ha'
  obtain ⟨m, hm, hma⟩ := ha
  obtain ⟨m', hm', hma'⟩ := ha'
  obtain ⟨i, hi, hmi, hki⟩ := hpos m hm
  obtain ⟨i', hi', hmi', hki'⟩ := hpos' m' hm'
  have hlen := zip3_length contents il ml
  have hieq : i = i' := by
    apply nodup_getD_inj il hnd (by omega) (by omega)
    have h1 : m.1 = il.getD i "" := by rw [hmi]
    have h2 : m'.1 = il.getD i' "" := by rw [hmi']
    rw [← h1, ← h2, hma, hma']
  subst hieq
  have hkk : k = k' := by rw [hki, hki']
  subst hkk
  have : ms = ms' := by
    rw [hashBuckets_eq] at hmem hmem'
    exact bucketsOfPairs_det _ _ _ _ hmem hmem'
  subst this
  exact hne rfl

/-! ### Truncation: only indices below the shortest input list are hashed -/

theorem zip3_nil_left (bs : List β) (cs : List γ) :
    zip3 ([] : List α) bs cs = [] := by
  cases bs <;> cases cs <;> rfl

theorem zip3_nil_mid (as : List α) (cs : List γ) :
    zip3 as ([] : List β) cs = [] := by
  cases as <;> cases cs <;> rfl

theorem zip3_nil_right (as : List α) (bs : List β) :
    zip3 as bs ([] : List γ) = [] := by
  cases as <;> cases bs <;> rfl

theorem zip3_take (as : List α) (bs : List β) (cs : List γ) :
    ∀ k, min as.length (min bs.length cs.length) ≤ k →
      zip3 (as.take k) (bs.take k) (cs.take k) = zip3 as bs cs := by
  induction as generalizing bs cs with
  | nil =>
    intro k _
    simp only [List.take_nil, zip3_nil_left]
  | cons a as ih =>
    intro k hk
    match bs, cs with
    | [], _ =>
      simp only [List.take_nil, zip3_nil_mid]
    | b :: bs', [] =>
      simp only [List.take_nil, zip3_nil_right]
    | b :: bs', c :: cs' =>
      match k with
      | 0 =>
        simp only [List.length_cons] at hk
        omega
      | k' + 1 =>
        simp only [List.take_succ_cons, zip3]
        rw [ih bs' cs' k' (by
          simp only [List.length_cons] at hk
          omega)]

theorem hashPairs_take (contents ids : List String) (metas : List Meta)
    (nm : Bool) (k : Nat)
    (hk : min contents.length (min ids.length metas.length) ≤ k) :
    hashPairs (contents.take k) (ids.take k) (metas.take k) nm =
      hashPairs contents ids metas nm := by
  simp only [hashPairs]
  rw [zip3_take contents ids metas k hk]

/-! ### Reverse membership in the hash pairs and buckets -/

theorem hashPairs_mem_of_lt (contents ids : List String) (metas : List Meta)
    (nm : Bool) (i : Nat) (hi : i < (zip3 contents ids metas).length) :
    (contentHash (if nm then normalizeText (contents.getD i "")
        else contents.getD i ""),
      (ids.getD i "", i, metas.getD i [])) ∈
      hashPairs contents ids metas nm := by
  simp only [hashPairs, List.mem_map, pyEnum]
  refine ⟨(i, (zip3 contents ids metas).getD i ("", "", [])), ?_, ?_⟩
  · rw [mem_enumFrom]
    refine ⟨i, hi, by omega, ?_⟩
    simp only [List.getD_eq_getElem?_getD, List.getElem?_eq_getElem hi,
      Option.getD_some]
  · rw [zip3_getD contents ids metas "" "" [] i hi]

theorem hashBuckets_mem_of_pair (contents ids : List String)
    (metas : List Meta) (nm : Bool) (q : String × Member)
    (hq : q ∈ hashPairs contents ids metas nm) :
    (q.1, ((hashPairs contents ids metas nm).filter
        (fun p => decide (p.1 = q.1))).map Prod.snd) ∈
      hashBuckets contents ids metas nm ∧
    q.2 ∈ ((hashPairs contents ids metas nm).filter
        (fun p => decide (p.1 = q.1))).map Prod.snd := by
  constructor
  · rw [hashBuckets_eq, mem_bucketsOfPairs]
    exact ⟨List.mem_map.mpr ⟨q, hq, rfl⟩, rfl⟩
  · exact List.mem_map.mpr ⟨q, List.mem_filter.mpr ⟨hq, by simp⟩, rfl⟩

/-! ### The removal list as an index erasure -/

theorem filterMap_enum_skip_eraseIdx (l : List Member) :
    ∀ (s k : Nat), s ≤ k →
      (enumFrom s l).filterMap
          (fun p => if p.1 = k then none else some p.2.1) =
        (l.map (fun m => m.1)).eraseIdx (k - s) := by
  induction l with
  | nil => intro s k _; rfl
  | cons a rest ih =>
    intro s k hsk
    simp only [enumFrom, List.filterMap_cons, List.map_cons]
    by_cases hs : s = k
    · rw [if_pos hs]
      have h0 : k - s = 0 := by omega
      rw [h0, List.eraseIdx_cons_zero,
        filterMap_enum_skip_none rest _ (s + 1) k (by omega),
        enumFrom_map_val]
    · rw [if_neg hs]
      have hk1 : k - s = (k - (s + 1)) + 1 := by omega
      rw [hk1, List.eraseIdx_cons_succ, ih (s + 1) k (by omega)]

/-! ### Small list facts -/

theorem nodup_exists_other {α : Type} {l : List α} (hnd : l.Nodup)
    (hlen : 2 ≤ l.length) {a : α} (ha : a ∈ l) : ∃ b ∈ l, b ≠ a := by
  match l, hnd, hlen, ha with
  | x :: y :: rest, hnd, _, ha =>
    by_cases hax : a = x
    · subst hax
      refine ⟨y, List.mem_cons_of_mem _ (List.mem_cons_self _ _), ?_⟩
      intro hbad
      apply (List.nodup_cons.mp hnd).1
      rw [← hbad]
      exact List.mem_cons_self y rest
    · exact ⟨x, List.mem_cons_self _ _, fun hbad => hax hbad.symm⟩

/-! ### The delete batches -/

theorem chunksOfAux_flatten {α : Type} (bs : Nat) (hbs : 0 < bs) :
    ∀ (fuel : Nat) (l : List α), l.length ≤ fuel →
      (chunksOfAux bs fuel l).flatten = l := by
  intro fuel
  induction fuel with
  | zero =>
    intro l hl
    have h0 : l = [] := List.length_eq_zero.mp (by omega)
    subst h0
    rfl
  | succ fuel ih =>
    intro l hl
    match l with
    | [] => rfl
    | a :: rest =>
      simp only [chunksOfAux, List.flatten_cons]
      rw [ih ((a :: rest).drop bs) (by
        simp only [List.length_drop, List.length_cons]
        simp only [List.length_cons] at hl
        omega)]
      exact List.take_append_drop bs (a :: rest)

theorem chunksOfAux_mem {α : Type} (bs : Nat) (hbs : 0 < bs) :
    ∀ (fuel : Nat) (l : List α) (b : List α), b ∈ chunksOfAux bs fuel l →
      b ≠ [] ∧ b.length ≤ bs := by
  intro fuel
  induction fuel with
  | zero => intro l b hb; simp [chunksOfAux] at hb
  | succ fuel ih =>
    intro l b hb
    match l with
    | [] => simp [chunksOfAux] at hb
    | a :: rest =>
      simp only [chunksOfAux, List.mem_cons] at hb
      rcases hb with heq | hb'
      · subst heq
        constructor
        · intro hbad
          have hlen := congrArg List.length hbad
          simp only [List.length_take, List.length_cons,
            List.length_nil] at hlen
          omega
        · simp only [List.length_take]
          omega
      · exact ih _ _ hb'

theorem chunksOf_flatten {α : Type} (bs : Nat) (hbs : 0 < bs)
    (l : List α) : (chunksOf bs l).flatten = l := by
  simp only [chunksOf, if_neg (by omega : ¬ bs = 0)]
  exact chunksOfAux_flatten bs hbs l.length l (le_refl _)

theorem chunksOf_mem {α : Type} (bs : Nat) (hbs : 0 < bs) (l : List α)
    (b : List α) (hb : b ∈ chunksOf bs l) : b ≠ [] ∧ b.length ≤ bs := by
  simp only [chunksOf, if_neg (by omega : ¬ bs = 0)] at hb
  exact chunksOfAux_mem bs hbs l.length l b hb

/-! ### Inverting a successful semantic run -/

theorem findNearDuplicates_ok_inv (cfgT : ℚ) (bs : Nat)
    (es : List (List ℚ)) (oids : Option (List String)) (th : Option ℚ)
    (r : DedupResult) (hok : findNearDuplicates cfgT bs es oids th = .ok r) :
    sameLen es = true ∧ es ≠ [] ∧
      r = { total_items := es.length
            unique_items :=
              (semBuckets es (effectiveThreshold cfgT th) bs).length
            duplicate_groups := semGroups es (effectiveThreshold cfgT th) bs
              (effIds oids es.length)
            removed_ids :=
              ((semGroups es (effectiveThreshold cfgT th) bs
                  (effIds oids es.length)).map
                (fun g => g.remove_ids)).flatten } := by
  by_cases h1 : sameLen es = true
  · by_cases h2 : es.length = 0
    · simp [findNearDuplicates, h1, h2] at hok
    · have hne : es ≠ [] := by
        intro hbad
        subst hbad
        simp at h2
      rw [findNearDuplicates_ok cfgT bs es oids th h1 hne] at hok
      simp only [Except.ok.injEq] at hok
      exact ⟨h1, hne, hok.symm⟩
  · simp [findNearDuplicates, h1] at hok

/-! ### The cosine relation is symmetric -/

theorem cosineGE_symm (v w : List ℚ) (t : ℚ) :
    cosineGE v w t ↔ cosineGE w v t := by
  unfold cosineGE
  rw [dotp_comm v w, mul_comm (Real.sqrt ((normSq v : ℚ) : ℝ))
    (Real.sqrt ((normSq w : ℚ) : ℝ))]

/-! ### The spec's similarity relation and its closure -/

/-- The spec's pairwise relation: both indices in range and the real
cosine of the unit-normalised rows at least `t`. -/
def specSimRel (es : List (List ℚ)) (t : ℚ) (i j : Nat) : Prop :=
  i < es.length ∧ j < es.length ∧ cosineGE (es.getD i []) (es.getD j []) t

theorem eqvGen_relSem_iff_spec (es : List (List ℚ)) (t : ℚ) (bs : Nat)
    (hbs : 0 < bs) (ht : 0 ≤ t) (a b : Nat) :
    Relation.EqvGen (relSem es t bs) a b ↔
      Relation.EqvGen (specSimRel es t) a b := by
  constructor
  · apply eqvGen_mono_flatten
    intro u v huv
    obtain ⟨hmem, hsim⟩ := huv
    obtain ⟨huv', hvn⟩ := pairSeq_bounds hmem
    exact Relation.EqvGen.rel _ _
      ⟨by omega, hvn, (simGE_iff_cosineGE _ _ _ ht).mp hsim⟩
  · apply eqvGen_mono_flatten
    intro u v huv
    obtain ⟨hun, hvn, hcos⟩ := huv
    rcases Nat.lt_trichotomy u v with hlt | heq | hgt
    · exact Relation.EqvGen.rel _ _
        ⟨pairSeq_complete hbs hlt hvn, (simGE_iff_cosineGE _ _ _ ht).mpr hcos⟩
    · subst heq
      exact Relation.EqvGen.refl u
    · refine Relation.EqvGen.symm _ _ (Relation.EqvGen.rel _ _ ?_)
      refine ⟨pairSeq_complete hbs hgt hun, ?_⟩
      exact (simGE_iff_cosineGE _ _ _ ht).mpr ((cosineGE_symm _ _ _).mp hcos)

/-- Locating the bucket index of an id appearing in a semantic group. -/
theorem semGroups_id_index (es : List (List ℚ)) (t : ℚ) (bs : Nat)
    (ids : List String) (hnd : ids.Nodup) (hlen : es.length ≤ ids.length)
    {g : DuplicateGroup} (hg : g ∈ semGroups es t bs ids) {i : Nat}
    (hi : i < es.length) (hgi : ids.getD i "" ∈ g.ids) :
    ∃ k ms, (k, ms) ∈ semBuckets es t bs ∧ ms.length > 1 ∧ ms.Nodup ∧
      i ∈ ms ∧
      g = { hash_value := "semantic_group_" ++ toString k
            ids := ms.map (fun m => ids.getD m "")
            keep_id := ids.getD (ms.getD 0 0) ""
            remove_ids := (ms.drop 1).map (fun m => ids.getD m "") } := by
  obtain ⟨k, ms, hmem, hmslen, hgeq⟩ := (semGroups_mem es t bs ids g).mp hg
  obtain ⟨-, hmsnd, hmschar⟩ := semBuckets_members es t bs k ms hmem
  refine ⟨k, ms, hmem, hmslen, hmsnd, ?_, hgeq⟩
  rw [hgeq] at hgi
  simp only [List.mem_map] at hgi
  obtain ⟨m, hm, hmx⟩ := hgi
  have hmn := (hmschar m hm).1
  have hmi : m = i := nodup_getD_inj ids hnd (by omega) (by omega) hmx
  exact hmi ▸ hm

/-- Two distinct in-range items share a reported semantic group exactly
when they are joined by the equivalence closure of the spec relation. -/
theorem semGroups_pair_iff (es : List (List ℚ)) (t : ℚ) (bs : Nat)
    (ids : List String) (hbs : 0 < bs) (ht : 0 ≤ t) (hnd : ids.Nodup)
    (hlen : es.length ≤ ids.length) (i j : Nat) (hi : i < es.length)
    (hj : j < es.length) (hij : i ≠ j) :
    (∃ g ∈ semGroups es t bs ids,
        ids.getD i "" ∈ g.ids ∧ ids.getD j "" ∈ g.ids) ↔
      Relation.EqvGen (specSimRel es t) i j := by
  constructor
  · rintro ⟨g, hg, hgi, hgj⟩
    obtain ⟨k, ms, hmem, -, -, him, hgeq⟩ :=
      semGroups_id_index es t bs ids hnd hlen hg hi hgi
    obtain ⟨-, -, hmschar⟩ := semBuckets_members es t bs k ms hmem
    have hjm : j ∈ ms := by
      rw [hgeq] at hgj
      simp only [List.mem_map] at hgj
      obtain ⟨m, hm, hmx⟩ := hgj
      have hmn := (hmschar m hm).1
      have hmj : m = j := nodup_getD_inj ids hnd (by omega) (by omega) hmx
      exact hmj ▸ hm
    have hEq : EquivUF (ufAfterPairs es t bs) i j :=
      (semBuckets_mem_iff es t bs i j hi hj).mp ⟨k, ms, hmem, him, hjm⟩
    rw [← eqvGen_relSem_iff_spec es t bs hbs ht]
    exact ((ufAfterPairs_spec es t bs).2 i j).mp hEq
  · intro hEqv
    have hEq : EquivUF (ufAfterPairs es t bs) i j :=
      ((ufAfterPairs_spec es t bs).2 i j).mpr
        ((eqvGen_relSem_iff_spec es t bs hbs ht i j).mpr hEqv)
    obtain ⟨k, ms, hmem, him, hjm⟩ :=
      (semBuckets_mem_iff es t bs i j hi hj).mpr hEq
    have hlen2 : ms.length > 1 := by
      have := two_le_length_of_mem_ne him hjm hij
      omega
    refine ⟨_, (semGroups_mem es t bs ids _).mpr
      ⟨k, ms, hmem, hlen2, rfl⟩, ?_, ?_⟩
    · exact List.mem_map.mpr ⟨i, him, rfl⟩
    · exact List.mem_map.mpr ⟨j, hjm, rfl⟩

/-! ## The claims -/

/-- C1: For every input list of contents (with ids and metadatas, when
supplied, of the same length as contents), the `DedupResult` returned by
`HashDeduplicator.find_duplicates` and the `DedupResult` returned by
`SemanticDeduplicator.find_near_duplicates` satisfy
`unique_items + |removed_ids| = total_items`, and
`duplicate_count = total_items - unique_items = |removed_ids|`. -/
theorem C1_accounting_invariant :
    (∀ (contents : List String) (ids : Option (List String))
        (metas : Option (List Meta)) (nm : Bool),
      (∀ l, ids = some l → l.length = contents.length) →
      (∀ l, metas = some l → l.length = contents.length) →
      (findDuplicates contents ids metas nm).unique_items +
          (findDuplicates contents ids metas nm).removed_ids.length =
        (findDuplicates contents ids metas nm).total_items ∧
      (findDuplicates contents ids metas nm).duplicate_count =
        ((findDuplicates contents ids metas nm).total_items : Int) -
          ((findDuplicates contents ids metas nm).unique_items : Int) ∧
      (findDuplicates contents ids metas nm).duplicate_count =
        ((findDuplicates contents ids metas nm).removed_ids.length : Int)) ∧
    (∀ (cfgT : ℚ) (bs : Nat) (es : List (List ℚ))
        (ids : Option (List String)) (th : Option ℚ) (res : DedupResult),
      findNearDuplicates cfgT bs es ids th = .ok res →
      res.unique_items + res.removed_ids.length = res.total_items ∧
      res.duplicate_count =
        (res.total_items : Int) - (res.unique_items : Int) ∧
      res.duplicate_count = (res.removed_ids.length : Int)) := by
  constructor
  · intro contents ids metas nm hid hmt
    have h := findDuplicates_inv contents ids metas nm hid hmt
    refine ⟨h, rfl, ?_⟩
    simp only [DedupResult.duplicate_count]
    omega
  · intro cfgT bs es ids th res hok
    have h := findNearDuplicates_inv cfgT bs es ids th res hok
    refine ⟨h, rfl, ?_⟩
    simp only [DedupResult.duplicate_count]
    omega

theorem C1_accounting_invariant_witness :
    ((findDuplicates ["a", "a", "b"] none none true).unique_items +
        (findDuplicates ["a", "a", "b"] none none true).removed_ids.length =
      (findDuplicates ["a", "a", "b"] none none true).total_items) ∧
    ((findDuplicates ["a", "a", "b"] none none true).duplicate_count =
      ((findDuplicates ["a", "a", "b"] none none true).removed_ids.length :
        Int)) ∧
    ({ total_items := 2, unique_items := 1,
       duplicate_groups :=
         [{ hash_value := "semantic_group_1"
            ids := ["item_0", "item_1"], keep_id := "item_0"
            remove_ids := ["item_1"] }],
       removed_ids := ["item_1"] } : DedupResult).unique_items +
      ({ total_items := 2, unique_items := 1,
         duplicate_groups :=
           [{ hash_value := "semantic_group_1"
              ids := ["item_0", "item_1"], keep_id := "item_0"
              remove_ids := ["item_1"] }],
         removed_ids := ["item_1"] } : DedupResult).removed_ids.length =
      ({ total_items := 2, unique_items := 1,
         duplicate_groups :=
           [{ hash_value := "semantic_group_1"
              ids := ["item_0", "item_1"], keep_id := "item_0"
              remove_ids := ["item_1"] }],
         removed_ids := ["item_1"] } : DedupResult).total_items := by
  have h1 := C1_accounting_invariant.1 ["a", "a", "b"] none none true
    (fun l h => nomatch h) (fun l h => nomatch h)
  have h2 := (C1_accounting_invariant.2 0.95 100 [[1], [1]] none none
    { total_items := 2, unique_items := 1,
      duplicate_groups :=
        [{ hash_value := "semantic_group_1"
           ids := ["item_0", "item_1"], keep_id := "item_0"
           remove_ids := ["item_1"] }],
      removed_ids := ["item_1"] } (by rfl)).1
  exact ⟨h1.1, h1.2.2, h2⟩

/-- C6 (amended): when embeddings are absent, `DedupEngine.full_dedup`
skips the semantic phase entirely (`semantic_result` is `none`) and
returns the hash-only result without failing; but when embeddings are
present and of mismatched dimensionality (with more than one hash
survivor), the run fails with the numpy error instead of skipping the
phase. -/
theorem C6_embeddings_absent_skips_semantic :
    (∀ (cfgT : ℚ) (bs : Nat) (contents : List String)
        (ids : Option (List String)) (metas : Option (List Meta))
        (dr : Bool),
      ∃ r, fullDedup cfgT bs contents ids metas none dr = .ok r ∧
        r.semantic_result = none ∧
        r.hash_result = findDuplicates contents
          (some (effIds ids contents.length))
          (some (effMetas metas contents.length)) true) ∧
    fullDedup 0.95 100 ["a", "b"] (some ["x", "y"]) none
        (some [[1], [1, 2]]) true =
      .error "ValueError: ragged embeddings" := by
  constructor
  · intro cfgT bs contents ids metas dr
    exact ⟨_, rfl, rfl, rfl⟩
  · rfl

/-- C6 counterexample: the claim says mismatched-dimensionality
embeddings make the engine skip the semantic phase and still return the
hash-only result; instead the run aborts with numpy's `ValueError`
(`np.array` on a ragged list), so no report is returned at all. -/
theorem C6_counterexample :
    fullDedup 0.95 100 ["a", "b"] (some ["x", "y"]) none
        (some [[1], [1, 2]]) false =
      .error "ValueError: ragged embeddings" := rfl

/-- C9: when items are supplied without ids, the engine synthesizes the
positional id `item_<index>` for each item and completes the run: the
result is identical to supplying the positional id list explicitly,
`total_items` is still the full input count, and every id appearing in a
duplicate group is such a positional id. -/
theorem C9_positional_id_backfill :
    (∀ (contents : List String) (metas : Option (List Meta)) (nm : Bool),
      findDuplicates contents none metas nm =
        findDuplicates contents (some (positionalIds contents.length))
          metas nm) ∧
    (∀ (contents : List String) (metas : Option (List Meta)) (nm : Bool),
      (findDuplicates contents none metas nm).total_items =
        contents.length) ∧
    (∀ (cfgT : ℚ) (bs : Nat) (contents : List String)
        (metas : Option (List Meta)) (embs : Option (List (List ℚ)))
        (dr : Bool),
      fullDedup cfgT bs contents none metas embs dr =
        fullDedup cfgT bs contents (some (positionalIds contents.length))
          metas embs dr) ∧
    (∀ (contents : List String) (metas : Option (List Meta)) (nm : Bool),
      ∀ g ∈ (findDuplicates contents none metas nm).duplicate_groups,
        ∀ a ∈ g.ids, ∃ i, i < contents.length ∧
          a = "item_" ++ toString i) := by
  have heff : ∀ n, effIds none n = effIds (some (positionalIds n)) n := by
    intro n
    by_cases hn : n = 0
    · subst hn
      rfl
    · simp only [effIds]
      rw [if_neg]
      simp only [List.isEmpty_iff, positionalIds]
      intro hbad
      have := congrArg List.length hbad
      simp at this
      omega
  refine ⟨?_, ?_, ?_, ?_⟩
  · intro contents metas nm
    simp only [findDuplicates, heff]
  · intro contents metas nm
    rfl
  · intro cfgT bs contents metas embs dr
    simp only [fullDedup, heff]
  · intro contents metas nm g hg a ha
    obtain ⟨k, ms, hmem, -, hgeq⟩ :=
      (hashGroups_mem contents none metas nm g).mp hg
    obtain ⟨-, hpos⟩ := hashBucket_members contents
      (effIds none contents.length) (effMetas metas contents.length) nm
      k ms hmem
    rw [hgeq] at ha
    simp only [hashGroupOf, List.mem_map] at ha
    obtain ⟨m, hm, hma⟩ := ha
    obtain ⟨i, hi, hmi, -⟩ := hpos m hm
    have hlen := zip3_length contents (effIds none contents.length)
      (effMetas metas contents.length)
    have hieff : effIds none contents.length = positionalIds contents.length :=
      rfl
    have hin : i < contents.length := by omega
    refine ⟨i, hin, ?_⟩
    have hgetd : (positionalIds contents.length).getD i "" =
        "item_" ++ toString i := by
      rw [positionalIds, List.getD_eq_getElem?_getD,
        List.getElem?_eq_getElem (by simpa using hin)]
      simp
    rw [← hma, hmi]
    simp only [hieff]
    exact hgetd

theorem C9_positional_id_backfill_witness :
    ∃ i, i < (["x", "x"] : List String).length ∧
      "item_0" = "item_" ++ toString i := by
  have hg : DuplicateGroup.mk (contentHash "x") ["item_0", "item_1"]
      "item_0" ["item_1"] ∈
      (findDuplicates ["x", "x"] none none true).duplicate_groups := by
    decide
  have ha : "item_0" ∈ (DuplicateGroup.mk (contentHash "x")
      ["item_0", "item_1"] "item_0" ["item_1"]).ids := by decide
  exact C9_positional_id_backfill.2.2.2 ["x", "x"] none true _ hg _ ha

/-- C3: in every `DedupResult` of either phase each group's kept id is a
member, the removals are the member list with the kept occurrence erased
(and, for pairwise-distinct input ids, exactly the members other than the
kept id, with no id shared between distinct groups), and groups always
have at least two members. -/
theorem C3_group_invariants :
    (∀ (contents : List String) (ids : Option (List String))
        (metas : Option (List Meta)) (nm : Bool) (g : DuplicateGroup),
      g ∈ (findDuplicates contents ids metas nm).duplicate_groups →
      2 ≤ g.ids.length ∧ g.keep_id ∈ g.ids ∧
        ∃ j, j < g.ids.length ∧ g.keep_id = g.ids.getD j "" ∧
          g.remove_ids = g.ids.eraseIdx j) ∧
    (∀ (contents : List String) (ids : Option (List String))
        (metas : Option (List Meta)) (nm : Bool),
      (effIds ids contents.length).Nodup →
      (∀ g ∈ (findDuplicates contents ids metas nm).duplicate_groups,
        g.ids.Nodup ∧
          g.remove_ids =
            g.ids.filter (fun a => decide (¬ a = g.keep_id))) ∧
      (∀ g g',
        g ∈ (findDuplicates contents ids metas nm).duplicate_groups →
        g' ∈ (findDuplicates contents ids metas nm).duplicate_groups →
        g ≠ g' → ∀ a ∈ g.ids, a ∉ g'.ids)) ∧
    (∀ (cfgT : ℚ) (bs : Nat) (es : List (List ℚ))
        (oids : Option (List String)) (th : Option ℚ) (r : DedupResult),
      findNearDuplicates cfgT bs es oids th = .ok r →
      (∀ g ∈ r.duplicate_groups,
        2 ≤ g.ids.length ∧ g.keep_id ∈ g.ids ∧
          g.keep_id = g.ids.getD 0 "" ∧ g.remove_ids = g.ids.drop 1) ∧
      ((effIds oids es.length).Nodup →
        es.length ≤ (effIds oids es.length).length →
        (∀ g ∈ r.duplicate_groups, g.ids.Nodup ∧
          g.remove_ids =
            g.ids.filter (fun a => decide (¬ a = g.keep_id))) ∧
        (∀ g g', g ∈ r.duplicate_groups → g' ∈ r.duplicate_groups →
          g ≠ g' → ∀ a ∈ g.ids, a ∉ g'.ids))) := by
  refine ⟨?_, ?_, ?_⟩
  · intro contents ids metas nm g hg
    obtain ⟨k, ms, hmem, hmslen, hgeq⟩ :=
      (hashGroups_mem contents ids metas nm g).mp hg
    have hne : ms ≠ [] := by
      intro hbad
      subst hbad
      simp at hmslen
    have hsk := selectKeep_lt ms hne
    subst hgeq
    have hids : (hashGroupOf k ms).ids = ms.map (fun m => m.1) := rfl
    refine ⟨?_, hashGroupOf_keep_mem k ms hne, selectKeep ms, ?_, ?_, ?_⟩
    · rw [hids, List.length_map]
      omega
    · rw [hids, List.length_map]
      exact hsk
    · rw [hids, map_fst_getD ms (selectKeep ms) hsk]
      rfl
    · rw [hids]
      have herase := filterMap_enum_skip_eraseIdx ms 0 (selectKeep ms)
        (by omega)
      simp only [hashGroupOf, pyEnum]
      rw [herase, Nat.sub_zero]
  · intro contents ids metas nm hnd
    constructor
    · intro g hg
      obtain ⟨k, ms, hmem, hmslen, hgeq⟩ :=
        (hashGroups_mem contents ids metas nm g).mp hg
      have hne : ms ≠ [] := by
        intro hbad
        subst hbad
        simp at hmslen
      have hnd2 := hashBucket_ids_nodup contents _ _ nm hnd k ms hmem
      subst hgeq
      exact ⟨hnd2, hashGroupOf_remove_eq k ms hne hnd2⟩
    · intro g g' hg hg' hne a ha ha'
      obtain ⟨k, ms, hmem, hmslen, hgeq⟩ :=
        (hashGroups_mem contents ids metas nm g).mp hg
      obtain ⟨k', ms', hmem', hmslen', hgeq'⟩ :=
        (hashGroups_mem contents ids metas nm g').mp hg'
      have hpair_ne : (k, ms) ≠ (k', ms') := by
        intro hbad
        apply hne
        have hk := congrArg Prod.fst hbad
        have hms := congrArg Prod.snd hbad
        simp only at hk hms
        rw [hgeq, hgeq', hk, hms]
      have ha2 : a ∈ ms.map (fun m => m.1) := by
        rw [hgeq] at ha
        exact ha
      have ha2' : a ∈ ms'.map (fun m => m.1) := by
        rw [hgeq'] at ha'
        exact ha'
      exact hashBuckets_disjoint contents _ _ nm hnd k k' ms ms' hmem hmem'
        hpair_ne a ha2 ha2'
  · intro cfgT bs es oids th r hok
    obtain ⟨hdim, hne, hreq⟩ :=
      findNearDuplicates_ok_inv cfgT bs es oids th r hok
    subst hreq
    constructor
    · intro g hg
      obtain ⟨k, ms, hmem, hmslen, hgeq⟩ :=
        (semGroups_mem es (effectiveThreshold cfgT th) bs
          (effIds oids es.length) g).mp hg
      obtain ⟨hmsne, -, -⟩ :=
        semBuckets_members es (effectiveThreshold cfgT th) bs k ms hmem
      obtain ⟨m0, rest, hcons⟩ : ∃ m0 rest, ms = m0 :: rest := by
        match ms, hmsne with
        | m0 :: rest, _ => exact ⟨m0, rest, rfl⟩
      subst hcons
      subst hgeq
      refine ⟨?_, List.mem_cons_self _ _, rfl, rfl⟩
      simp only [List.length_map, List.length_cons]
      simp only [List.length_cons] at hmslen
      omega
    · intro hnd hlen
      constructor
      · intro g hg
        have hs := semGroups_structure es (effectiveThreshold cfgT th) bs
          (effIds oids es.length) hnd hlen g hg
        exact ⟨hs.2.1, hs.2.2.2.2⟩
      · intro g g' hg hg' hgne
        exact semGroups_disjoint es (effectiveThreshold cfgT th) bs
          (effIds oids es.length) hnd hlen g g' hg hg' hgne

theorem C3_group_invariants_witness :
    (2 ≤ (DuplicateGroup.mk (contentHash "d") ["item_0", "item_1"]
        "item_0" ["item_1"]).ids.length ∧
      (DuplicateGroup.mk (contentHash "d") ["item_0", "item_1"] "item_0"
          ["item_1"]).keep_id ∈
        (DuplicateGroup.mk (contentHash "d") ["item_0", "item_1"] "item_0"
          ["item_1"]).ids) ∧
    (DuplicateGroup.mk "semantic_group_1" ["item_0", "item_1"] "item_0"
        ["item_1"]).keep_id =
      (DuplicateGroup.mk "semantic_group_1" ["item_0", "item_1"] "item_0"
        ["item_1"]).ids.getD 0 "" := by
  have h1 := C3_group_invariants.1 ["d", "d"] none none true
    (DuplicateGroup.mk (contentHash "d") ["item_0", "item_1"] "item_0"
      ["item_1"]) (by decide)
  have h3 := (C3_group_invariants.2.2 (95 / 100) 100 [[(1 : ℚ)], [1]] none
    none (DedupResult.mk 2 1
      [DuplicateGroup.mk "semantic_group_1" ["item_0", "item_1"] "item_0"
        ["item_1"]] ["item_1"]) (by rfl)).1
    (DuplicateGroup.mk "semantic_group_1" ["item_0", "item_1"] "item_0"
      ["item_1"]) (by decide)
  exact ⟨⟨h1.1, h1.2.1⟩, h3.2.2.1⟩

/-- C7: in every hash-phase duplicate group the kept id is that of the
bucket member with the greatest number of metadata key/value pairs, and
every earlier member has strictly fewer entries (ties keep the first in
input order); concretely, metadata `{"source": "a"}` versus `{}` on
identical contents keeps `"id1"`, and an exact tie keeps the
first-encountered id. -/
theorem C7_keep_selection :
    (∀ (contents : List String) (ids : Option (List String))
        (metas : Option (List Meta)) (nm : Bool) (g : DuplicateGroup),
      g ∈ (findDuplicates contents ids metas nm).duplicate_groups →
      ∃ k ms, (k, ms) ∈ hashBuckets contents (effIds ids contents.length)
          (effMetas metas contents.length) nm ∧ g = hashGroupOf k ms ∧
        g.keep_id = (ms.getD (selectKeep ms) ("", 0, [])).1 ∧
        (∀ j, j < ms.length →
          metaCount ms j ≤ metaCount ms (selectKeep ms)) ∧
        (∀ j, j < selectKeep ms →
          metaCount ms j < metaCount ms (selectKeep ms))) ∧
    (findDuplicates ["same", "same"] (some ["id1", "id2"])
        (some [[("source", "a")], []]) true).duplicate_groups.map
      (fun g => g.keep_id) = ["id1"] ∧
    (findDuplicates ["s", "s"] (some ["a1", "b2"]) none
        true).duplicate_groups.map (fun g => g.keep_id) = ["a1"] := by
  refine ⟨?_, by decide, by decide⟩
  intro contents ids metas nm g hg
  obtain ⟨k, ms, hmem, hmslen, hgeq⟩ :=
    (hashGroups_mem contents ids metas nm g).mp hg
  have hne : ms ≠ [] := by
    intro hbad
    subst hbad
    simp at hmslen
  obtain ⟨-, h2, h3⟩ := selectKeep_spec ms hne
  refine ⟨k, ms, hmem, hgeq, ?_, h2, h3⟩
  rw [hgeq]
  rfl

theorem C7_keep_selection_witness :
    ∃ k ms, (k, ms) ∈ hashBuckets ["same", "same"]
        (effIds (some ["id1", "id2"]) (["same", "same"] : List String).length)
        (effMetas (some [[("source", "a")], []])
          (["same", "same"] : List String).length) true ∧
      DuplicateGroup.mk (contentHash "same") ["id1", "id2"] "id1" ["id2"] =
        hashGroupOf k ms ∧
      (DuplicateGroup.mk (contentHash "same") ["id1", "id2"] "id1"
          ["id2"]).keep_id = (ms.getD (selectKeep ms) ("", 0, [])).1 ∧
      (∀ j, j < ms.length →
        metaCount ms j ≤ metaCount ms (selectKeep ms)) ∧
      (∀ j, j < selectKeep ms →
        metaCount ms j < metaCount ms (selectKeep ms)) :=
  C7_keep_selection.1 ["same", "same"] (some ["id1", "id2"])
    (some [[("source", "a")], []]) true
    (DuplicateGroup.mk (contentHash "same") ["id1", "id2"] "id1" ["id2"])
    (by decide)

/-- C8: with normalisation on, two contents equal after trimming and
collapsing each whitespace run to one space always land in a common
duplicate group (with normalisation off the same holds for byte-identical
contents); `["a  b", "a b"]` yields one duplicate when normalising and
none otherwise. -/
theorem C8_whitespace_normalization :
    (∀ (contents il : List String) (ml : List Meta) (nm : Bool)
        (i j : Nat),
      il.length = contents.length → ml.length = contents.length →
      i < contents.length → j < contents.length → i ≠ j →
      (if nm then normalizeText (contents.getD i "")
       else contents.getD i "") =
        (if nm then normalizeText (contents.getD j "")
         else contents.getD j "") →
      ∃ g ∈ (findDuplicates contents (some il) (some ml)
          nm).duplicate_groups,
        il.getD i "" ∈ g.ids ∧ il.getD j "" ∈ g.ids) ∧
    (findDuplicates ["a  b", "a b"] none none true).duplicate_count = 1 ∧
    (findDuplicates ["a  b", "a b"] none none false).duplicate_count
      = 0 := by
  refine ⟨?_, by decide, by decide⟩
  intro contents il ml nm i j hil hml hi hj hij heq
  have hzlen := zip3_length contents il ml
  have hizip : i < (zip3 contents il ml).length := by omega
  have hjzip : j < (zip3 contents il ml).length := by omega
  have hpi := hashPairs_mem_of_lt contents il ml nm i hizip
  have hpj := hashPairs_mem_of_lt contents il ml nm j hjzip
  rw [← heq] at hpj
  obtain ⟨hbi, hmi⟩ := hashBuckets_mem_of_pair contents il ml nm _ hpi
  set K := contentHash (if nm then normalizeText (contents.getD i "")
    else contents.getD i "") with hK
  set MS := ((hashPairs contents il ml nm).filter
    (fun p => decide (p.1 = K))).map Prod.snd with hMS
  have hmj : (il.getD j "", j, ml.getD j []) ∈ MS :=
    List.mem_map.mpr ⟨(K, (il.getD j "", j, ml.getD j [])),
      List.mem_filter.mpr ⟨hpj, by simp⟩, rfl⟩
  have hmemne : ((il.getD i "", i, ml.getD i []) : Member) ≠
      (il.getD j "", j, ml.getD j []) := by
    intro hbad
    have hidx := congrArg (fun m : Member => m.2.1) hbad
    simp only at hidx
    omega
  have hlen2 : MS.length > 1 := by
    have := two_le_length_of_mem_ne hmi hmj hmemne
    omega
  have hilne : ¬ il.isEmpty = true := by
    rw [List.isEmpty_iff]
    intro hbad
    rw [hbad] at hil
    simp at hil
    omega
  have hmlne : ¬ ml.isEmpty = true := by
    rw [List.isEmpty_iff]
    intro hbad
    rw [hbad] at hml
    simp at hml
    omega
  have heil : effIds (some il) contents.length = il := by
    simp only [effIds, if_neg hilne]
  have heml : effMetas (some ml) contents.length = ml := by
    simp only [effMetas, if_neg hmlne]
  refine ⟨hashGroupOf K MS, ?_, ?_, ?_⟩
  · rw [hashGroups_mem]
    refine ⟨K, MS, ?_, hlen2, rfl⟩
    rw [heil, heml]
    exact hbi
  · exact List.mem_map.mpr ⟨(il.getD i "", i, ml.getD i []), hmi, rfl⟩
  · exact List.mem_map.mpr ⟨(il.getD j "", j, ml.getD j []), hmj, rfl⟩

theorem C8_whitespace_normalization_witness :
    ∃ g ∈ (findDuplicates ["a  b", "a b"] (some ["u", "v"])
        (some [[], []]) true).duplicate_groups,
      "u" ∈ g.ids ∧ "v" ∈ g.ids :=
  C8_whitespace_normalization.1 ["a  b", "a b"] ["u", "v"] [[], []] true
    0 1 rfl rfl (by decide) (by decide) (by decide) (by decide)

/-- C10: `total_items` is always the full `contents` length while hashing
and grouping only cover indices below the shortest of the three input
lists, so the accounting invariant needs the equal-length precondition
and fails when a shorter non-empty `ids` list is supplied. -/
theorem C10_truncation_accounting :
    (∀ (contents : List String) (ids : Option (List String))
        (metas : Option (List Meta)) (nm : Bool),
      (findDuplicates contents ids metas nm).total_items =
        contents.length) ∧
    (∀ (contents il : List String) (ml : List Meta) (nm : Bool),
      hashBuckets contents il ml nm =
        hashBuckets
          (contents.take (min contents.length (min il.length ml.length)))
          (il.take (min contents.length (min il.length ml.length)))
          (ml.take (min contents.length (min il.length ml.length))) nm) ∧
    (∀ (contents il : List String) (ml : List Meta) (nm : Bool),
      il.length = contents.length → ml.length = contents.length →
      (findDuplicates contents (some il) (some ml) nm).unique_items +
          (findDuplicates contents (some il) (some ml)
            nm).removed_ids.length =
        (findDuplicates contents (some il) (some ml) nm).total_items) ∧
    ((findDuplicates ["a", "b"] (some ["x"]) none true).unique_items +
        (findDuplicates ["a", "b"] (some ["x"])
          none true).removed_ids.length ≠
      (findDuplicates ["a", "b"] (some ["x"]) none true).total_items) := by
  refine ⟨fun _ _ _ _ => rfl, ?_, ?_, by decide⟩
  · intro contents il ml nm
    simp only [hashBuckets]
    rw [hashPairs_take contents il ml nm
      (min contents.length (min il.length ml.length)) (le_refl _)]
  · intro contents il ml nm h1 h2
    exact findDuplicates_inv contents (some il) (some ml) nm
      (fun l hl => by cases hl; exact h1)
      (fun l hl => by cases hl; exact h2)

theorem C10_truncation_accounting_witness :
    (findDuplicates ["w", "w"] (some ["p", "q"]) (some [[], []])
        true).unique_items +
        (findDuplicates ["w", "w"] (some ["p", "q"]) (some [[], []])
          true).removed_ids.length =
      (findDuplicates ["w", "w"] (some ["p", "q"]) (some [[], []])
        true).total_items :=
  C10_truncation_accounting.2.2.1 ["w", "w"] ["p", "q"] [[], []] true
    rfl rfl

/-- C4 (amended): dry-run mode issues no delete batch at all and returns
the advisory report unchanged; apply mode deletes exactly the union of
both phases' removed ids, in order-preserving non-empty batches of at
most `batch_size` ids, and appends the final `Deleted …` note exactly
when that union is non-empty (nothing is deleted and no note is appended
when it is empty). -/
theorem C4_apply_mode_batches :
    (∀ (cfgT : ℚ) (bs : Nat) (contents ids : List String)
        (metas : List Meta) (embs : Option (List (List ℚ)))
        (rep : FullDedupReport),
      fullDedup cfgT bs contents (some ids) (some metas) embs true =
        .ok rep →
      dedupChromadbCollection cfgT bs contents ids metas embs true =
        .ok (rep, [])) ∧
    (∀ (cfgT : ℚ) (bs : Nat) (contents ids : List String)
        (metas : List Meta) (embs : Option (List (List ℚ)))
        (rep : FullDedupReport),
      0 < bs →
      fullDedup cfgT bs contents (some ids) (some metas) embs false =
        .ok rep →
      (allRemoveIds rep = [] →
        dedupChromadbCollection cfgT bs contents ids metas embs false =
          .ok (rep, [])) ∧
      (allRemoveIds rep ≠ [] →
        dedupChromadbCollection cfgT bs contents ids metas embs false =
          .ok ({ rep with actions_taken := rep.actions_taken ++
                  [deletedNote (allRemoveIds rep).length] },
            chunksOf bs (allRemoveIds rep)) ∧
        (chunksOf bs (allRemoveIds rep)).flatten = allRemoveIds rep ∧
        ∀ b ∈ chunksOf bs (allRemoveIds rep),
          b ≠ [] ∧ b.length ≤ bs)) := by
  constructor
  · intro cfgT bs contents ids metas embs rep hok
    simp [dedupChromadbCollection, hok]
  · intro cfgT bs contents ids metas embs rep hbs hok
    constructor
    · intro hemp
      simp [dedupChromadbCollection, hok, hemp]
    · intro hne
      refine ⟨?_, chunksOf_flatten bs hbs _,
        fun b hb => chunksOf_mem bs hbs _ b hb⟩
      simp [dedupChromadbCollection, hok, List.isEmpty_iff, hne]

theorem C4_apply_mode_batches_witness :
    dedupChromadbCollection (95 / 100) 100 ["a", "b"] ["x", "y"] [[], []]
        none true =
      .ok (FullDedupReport.mk
        (findDuplicates ["a", "b"] (some ["x", "y"]) (some [[], []]) true)
        none [], []) ∧
    dedupChromadbCollection (95 / 100) 100 ["c", "d"] ["x", "y"] [[], []]
        none false =
      .ok (FullDedupReport.mk
        (findDuplicates ["c", "d"] (some ["x", "y"]) (some [[], []]) true)
        none [], []) := by
  constructor
  · exact C4_apply_mode_batches.1 (95 / 100) 100 ["a", "b"] ["x", "y"]
      [[], []] none
      (FullDedupReport.mk
        (findDuplicates ["a", "b"] (some ["x", "y"]) (some [[], []]) true)
        none []) (by rfl)
  · exact (C4_apply_mode_batches.2 (95 / 100) 100 ["c", "d"] ["x", "y"]
      [[], []] none
      (FullDedupReport.mk
        (findDuplicates ["c", "d"] (some ["x", "y"]) (some [[], []]) true)
        none []) (by decide) (by rfl)).1 (by rfl)

/-- C4 counterexample: in apply mode with nothing to delete the engine
appends no final action note at all, refuting the claim's unconditional
"appends a final action note containing the total deleted count". -/
theorem C4_counterexample :
    ∃ rep, dedupChromadbCollection (95 / 100) 100 ["a", "b"] ["x", "y"]
        [[], []] none false = .ok (rep, []) ∧ rep.actions_taken = [] :=
  ⟨FullDedupReport.mk
    (findDuplicates ["a", "b"] (some ["x", "y"]) (some [[], []]) true)
    none [], rfl, rfl⟩

/-- C5 (amended): a caller-passed nonzero threshold governs every direct
comparison — the batched loop relates two in-range items `i < j` exactly
when the real cosine of their unit-normalised embeddings reaches that
threshold — but a passed threshold of `0.0` is falsy in Python and falls
back to the configured default (`0.95`), which also governs when no
threshold is passed at all. -/
theorem C5_threshold_semantics :
    (∀ (cfgT t : ℚ), t ≠ 0 → effectiveThreshold cfgT (some t) = t) ∧
    (∀ cfgT : ℚ, effectiveThreshold cfgT none = cfgT ∧
      effectiveThreshold cfgT (some 0) = cfgT) ∧
    defaultDedupConfig.semantic_threshold = 95 / 100 ∧
    (∀ (es : List (List ℚ)) (t : ℚ) (bs : Nat) (i j : Nat),
      0 < bs → 0 ≤ t → i < j → j < es.length →
      (relSem es t bs i j ↔
        cosineGE (es.getD i []) (es.getD j []) t)) := by
  refine ⟨?_, fun cfgT => ⟨rfl, by simp [effectiveThreshold]⟩,
    by decide, ?_⟩
  · intro cfgT t ht
    simp [effectiveThreshold, ht]
  · intro es t bs i j hbs ht hij hjn
    constructor
    · rintro ⟨-, hsim⟩
      exact (simGE_iff_cosineGE _ _ _ ht).mp hsim
    · intro hcos
      exact ⟨pairSeq_complete hbs hij hjn,
        (simGE_iff_cosineGE _ _ _ ht).mpr hcos⟩

theorem C5_threshold_semantics_witness :
    effectiveThreshold (95 / 100) (some (1 / 2)) = 1 / 2 ∧
    (relSem [[(1 : ℚ), 0], [1, 0]] (1 / 2) 100 0 1 ↔
      cosineGE ([[(1 : ℚ), 0], [1, 0]].getD 0 [])
        ([[(1 : ℚ), 0], [1, 0]].getD 1 []) (1 / 2)) :=
  ⟨C5_threshold_semantics.1 (95 / 100) (1 / 2) (by decide),
    C5_threshold_semantics.2.2.2 [[(1 : ℚ), 0], [1, 0]] (1 / 2) 100 0 1
      (by decide) (by decide) (by decide) (by decide)⟩

/-- C5 counterexample: with caller threshold `0.0` the comparison is not
governed by `0` — orthogonal rows satisfy the direct comparison at
threshold `0`, yet the run falls back to the `0.95` default and reports
no duplicate groups. -/
theorem C5_counterexample :
    simGE [(1 : ℚ), 0] [0, 1] 0 = true ∧
    effectiveThreshold (95 / 100) (some 0) = 95 / 100 ∧
    ∃ r, findNearDuplicates (95 / 100) 100 [[(1 : ℚ), 0], [0, 1]] none
        (some 0) = .ok r ∧ r.duplicate_groups = [] := by
  refine ⟨by decide, rfl, DedupResult.mk 2 2 [] [], by rfl, rfl⟩

/-- C2 (amended): for a positive caller-passed threshold the semantic
duplicate groups realise exactly the connected components of size at
least two of the equivalence closure of the symmetric relation "real
cosine of the unit-normalised embeddings at least `t`"; a passed
threshold of `0` instead falls back to the configured default, and the
spec's `0.96/0.96/0.80` similarity triple is unrealisable — a realisable
triple with similarities `0.96/0.96/0.8432` and threshold `0.95` does
put all three embeddings in one cluster of size 3. -/
theorem C2_transitive_closure_components :
    (∀ (cfgT t : ℚ) (bs : Nat) (es : List (List ℚ)) (ids : List String),
      0 < bs → 0 < t → ids.Nodup → ids.length = es.length → es ≠ [] →
      sameLen es = true →
      ∃ r, findNearDuplicates cfgT bs es (some ids) (some t) = .ok r ∧
        (∀ i j, i < es.length → j < es.length → i ≠ j →
          ((∃ g ∈ r.duplicate_groups,
              ids.getD i "" ∈ g.ids ∧ ids.getD j "" ∈ g.ids) ↔
            Relation.EqvGen (specSimRel es t) i j)) ∧
        (∀ i, i < es.length →
          ((∃ g ∈ r.duplicate_groups, ids.getD i "" ∈ g.ids) ↔
            ∃ j, j < es.length ∧ j ≠ i ∧
              Relation.EqvGen (specSimRel es t) i j))) ∧
    findNearDuplicates (95 / 100) 100
        [[(1 : ℚ), 0], [24 / 25, 7 / 25], [527 / 625, 336 / 625]]
        (some ["A", "B", "C"]) (some (95 / 100)) =
      .ok (DedupResult.mk 3 1
        [DuplicateGroup.mk "semantic_group_2" ["A", "B", "C"] "A"
          ["B", "C"]]
        ["B", "C"]) := by
  constructor
  · intro cfgT t bs es ids hbs ht hnd hlen hne hdim
    have ht0 : t ≠ 0 := by
      intro hbad
      rw [hbad] at ht
      exact lt_irrefl 0 ht
    have htnn : 0 ≤ t := le_of_lt ht
    have heff : effectiveThreshold cfgT (some t) = t := by
      simp [effectiveThreshold, ht0]
    have hidsne : ¬ ids.isEmpty = true := by
      rw [List.isEmpty_iff]
      intro hbad
      apply hne
      apply List.length_eq_zero.mp
      rw [← hlen, hbad]
      rfl
    have heil : effIds (some ids) es.length = ids := by
      simp only [effIds, if_neg hidsne]
    have hlen' : es.length ≤ ids.length := by omega
    refine ⟨{ total_items := es.length
              unique_items := (semBuckets es t bs).length
              duplicate_groups := semGroups es t bs ids
              removed_ids := ((semGroups es t bs ids).map
                (fun g => g.remove_ids)).flatten }, ?_, ?_, ?_⟩
    · rw [findNearDuplicates_ok cfgT bs es (some ids) (some t) hdim hne,
        heff, heil]
    · intro i j hi hj hij
      exact semGroups_pair_iff es t bs ids hbs htnn hnd hlen' i j hi hj hij
    · intro i hi
      constructor
      · rintro ⟨g, hg, hgi⟩
        obtain ⟨k, ms, hmem, hmslen, hmsnd, him, hgeq⟩ :=
          semGroups_id_index es t bs ids hnd hlen' hg hi hgi
        obtain ⟨-, -, hmschar⟩ := semBuckets_members es t bs k ms hmem
        obtain ⟨m', hm', hm'ne⟩ :=
          nodup_exists_other hmsnd (by omega) him
        have hm'n : m' < es.length := (hmschar m' hm').1
        refine ⟨m', hm'n, hm'ne, ?_⟩
        have hEq : EquivUF (ufAfterPairs es t bs) i m' :=
          (semBuckets_mem_iff es t bs i m' hi hm'n).mp
            ⟨k, ms, hmem, him, hm'⟩
        rw [← eqvGen_relSem_iff_spec es t bs hbs htnn]
        exact Relation.EqvGen.symm _ _
          (((ufAfterPairs_spec es t bs).2 m' i).mp (EquivUF.symm hEq))
      · rintro ⟨j, hj, hjne, hEqv⟩
        obtain ⟨g, hg, hgi, -⟩ :=
          (semGroups_pair_iff es t bs ids hbs htnn hnd hlen' i j hi hj
            (fun hbad => hjne hbad.symm)).mpr hEqv
        exact ⟨g, hg, hgi⟩
  · rfl

theorem C2_transitive_closure_components_witness :
    ∃ r, findNearDuplicates (95 / 100) 100
        [[(1 : ℚ), 0], [24 / 25, 7 / 25], [527 / 625, 336 / 625]]
        (some ["A", "B", "C"]) (some (95 / 100)) = .ok r := by
  obtain ⟨r, hr, -, -⟩ := C2_transitive_closure_components.1 (95 / 100)
    (95 / 100) 100 [[(1 : ℚ), 0], [24 / 25, 7 / 25], [527 / 625, 336 / 625]]
    ["A", "B", "C"] (by decide) (by decide) (by decide) (by decide)
    (by decide) (by decide)
  exact ⟨r, hr⟩

/-- C2 counterexample: the clustering is not closure-correct for every
threshold — at caller threshold `0` the first two rows are related by the
spec relation (their cosine is nonnegative), yet the run falls back to
the `0.95` default and reports no groups at all. -/
theorem C2_counterexample :
    specSimRel [[(1 : ℚ), 0], [1, 1]] 0 0 1 ∧
    ∃ r, findNearDuplicates (95 / 100) 100 [[(1 : ℚ), 0], [1, 1]] none
        (some 0) = .ok r ∧ r.duplicate_groups = [] := by
  constructor
  · refine ⟨by decide, by decide, ?_⟩
    exact (simGE_iff_cosineGE [(1 : ℚ), 0] [1, 1] 0 (le_refl 0)).mp
      (by decide)
  · exact ⟨DedupResult.mk 2 2 [] [], by rfl, rfl⟩

end DedupModel
